import Mathlib

/-!
Verification of the schema rewrite pipeline of the proto-convert tool.

The development shallowly embeds the TypeScript sources:
  * tools/proto-convert/src/SchemaModifier.ts        (the rewrite pipeline)
  * tools/proto-convert/src/utils/SpecificationVisitor.ts (location contexts)
The tree walker (utils/OpenApiTraverser.ts) and two helpers
(utils/helper.ts: resolveObj, compressMultipleUnderscores) are not among
the sources; they are modelled from the specification document and from
the traverser's own test suite, as noted on each such definition.

Schema nodes are JSON objects in the sources; they are embedded as a
record of optional fields (absent key = none), with child positions
(properties, additionalProperties, items, oneOf, anyOf, allOf,
propertyNames) holding nodes recursively.  JavaScript in-place mutation
becomes functional update; the component registry (root document) is
threaded explicitly through the rewrites that read or write it.
-/

set_option maxHeartbeats 1000000

namespace ProtoConvert

/-- Scalar (non-recursive) fields of a schema node.  Each field models the
JSON key of the same meaning on OpenAPIV3.SchemaObject; a value of none
models an absent key.  The three x-fields model the vendor extensions
written by handleMinMaxProperties. -/
structure NodeData where
  ref : Option String := none
  type : Option String := none
  title : Option String := none
  constV : Option String := none
  enumV : Option (List String) := none
  minProperties : Option Nat := none
  maxProperties : Option Nat := none
  xOneOfModel : Option Bool := none
  xOneOfProperty : Option Bool := none
  xOneOfNote : Option String := none
  deriving DecidableEq, Repr

mutual

/-- Value of an additionalProperties key: a boolean literal or a schema. -/
inductive APValue where
  | abool : Bool → APValue
  | aschema : Node → APValue

/-- A schema node: scalar data plus the recursive child positions
(properties, additionalProperties, items, oneOf, anyOf, allOf,
propertyNames), each optional to model key absence. -/
inductive Node where
  | mk : NodeData →
      Option (List (String × Node)) →   -- properties
      Option APValue →                  -- additionalProperties
      Option Node →                     -- items
      Option (List Node) →              -- oneOf
      Option (List Node) →              -- anyOf
      Option (List Node) →              -- allOf
      Option Node →                     -- propertyNames
      Node

end

/-- The component registry: components.schemas as an ordered association
list from component name to schema node. -/
abbrev Doc := List (String × Node)

namespace Node

def data : Node → NodeData
  | .mk d _ _ _ _ _ _ _ => d

def properties : Node → Option (List (String × Node))
  | .mk _ p _ _ _ _ _ _ => p

def additionalProperties : Node → Option APValue
  | .mk _ _ a _ _ _ _ _ => a

def items : Node → Option Node
  | .mk _ _ _ i _ _ _ _ => i

def oneOf : Node → Option (List Node)
  | .mk _ _ _ _ o _ _ _ => o

def anyOf : Node → Option (List Node)
  | .mk _ _ _ _ _ a _ _ => a

def allOf : Node → Option (List Node)
  | .mk _ _ _ _ _ _ a _ => a

def propertyNames : Node → Option Node
  | .mk _ _ _ _ _ _ _ p => p

def ref (n : Node) : Option String := n.data.ref
def type (n : Node) : Option String := n.data.type
def title (n : Node) : Option String := n.data.title
def constV (n : Node) : Option String := n.data.constV
def minProperties (n : Node) : Option Nat := n.data.minProperties
def maxProperties (n : Node) : Option Nat := n.data.maxProperties

def withData : Node → NodeData → Node
  | .mk _ p a i o an al pn, d => .mk d p a i o an al pn

def withProps : Node → Option (List (String × Node)) → Node
  | .mk d _ a i o an al pn, p => .mk d p a i o an al pn

def withAP : Node → Option APValue → Node
  | .mk d p _ i o an al pn, a => .mk d p a i o an al pn

def withItems : Node → Option Node → Node
  | .mk d p a _ o an al pn, i => .mk d p a i o an al pn

def withOneOf : Node → Option (List Node) → Node
  | .mk d p a i _ an al pn, o => .mk d p a i o an al pn

def withAnyOf : Node → Option (List Node) → Node
  | .mk d p a i o _ al pn, an => .mk d p a i o an al pn

def withAllOf : Node → Option (List Node) → Node
  | .mk d p a i o an _ pn, al => .mk d p a i o an al pn

def withPN : Node → Option Node → Node
  | .mk d p a i o an al _, pn => .mk d p a i o an al pn

end Node

/-- A node that carries only scalar data (no child positions). -/
def dataNode (d : NodeData) : Node := .mk d none none none none none none none

/-- A bare reference node, holding only a ref string. -/
def bareRef (r : String) : Node := dataNode { ref := some r }

/-- A node with only a type, such as the inline schema with type string. -/
def typeNode (t : String) : Node := dataNode { type := some t }

/-! ### Missing helpers, modelled from the specification -/

/-- Modelled from the spec: helper compressMultipleUnderscores of
utils/helper.ts, which is not among the sources; per its name and its
use on generated titles, it collapses every run of consecutive
underscores into a single underscore. -/
def compressChars : List Char → List Char
  | [] => []
  | [c] => [c]
  | c :: c' :: rest =>
    if c = '_' && c' = '_' then compressChars (c' :: rest)
    else c :: compressChars (c' :: rest)

/-- String version of compressChars. -/
def compressMultipleUnderscores (s : String) : String :=
  ⟨compressChars s.data⟩

/-- Split a character list on a separator; the list of segments is never
empty. -/
def splitChars (sep : Char) : List Char → List (List Char)
  | [] => [[]]
  | c :: cs =>
    match splitChars sep cs with
    | [] => [[]]
    | seg :: rest => if c = sep then [] :: seg :: rest else (c :: seg) :: rest

/-- Last segment of a JSON reference string, the component name: the ref
string is split on slashes and the last piece taken. -/
def refName (s : String) : String := ⟨(splitChars '/' s.data).getLastD []⟩

/-- Replace the binding of a key in an association list, appending when
the key is absent; models assignment to an object property. -/
def setAssoc (d : Doc) (k : String) (v : Node) : Doc :=
  if (d.lookup k).isSome then
    d.map (fun kv => if kv.1 == k then (k, v) else kv)
  else d ++ [(k, v)]

/-- Modelled from the spec: the reference resolver resolveObj of
utils/helper.ts, which is not among the sources.  Per the spec it
returns the node itself when it is not a reference, follows exactly one
level of indirection against the root document's components when it is,
and signals failure softly (here: none) when the reference names a
missing component. -/
def resolveObj (comps : Doc) (n : Node) : Option Node :=
  match n.ref with
  | none => some n
  | some r => comps.lookup (refName r)

/-! ### Field-level operations shared by the rewrites -/

/-- First operand when present, otherwise the second; the per-key rule of
JavaScript Object.assign restricted to one key. -/
def pick {α : Type} (s t : Option α) : Option α :=
  match s with
  | some v => some v
  | none => t

/-- Object.assign target src: every key present on src overwrites the
same key of target; keys absent on src keep target's value. -/
def assign (t s : Node) : Node :=
  .mk
    { ref := pick s.data.ref t.data.ref
      type := pick s.data.type t.data.type
      title := pick s.data.title t.data.title
      constV := pick s.data.constV t.data.constV
      enumV := pick s.data.enumV t.data.enumV
      minProperties := pick s.data.minProperties t.data.minProperties
      maxProperties := pick s.data.maxProperties t.data.maxProperties
      xOneOfModel := pick s.data.xOneOfModel t.data.xOneOfModel
      xOneOfProperty := pick s.data.xOneOfProperty t.data.xOneOfProperty
      xOneOfNote := pick s.data.xOneOfNote t.data.xOneOfNote }
    (pick s.properties t.properties)
    (pick s.additionalProperties t.additionalProperties)
    (pick s.items t.items)
    (pick s.oneOf t.oneOf)
    (pick s.anyOf t.anyOf)
    (pick s.allOf t.allOf)
    (pick s.propertyNames t.propertyNames)

/-! ### SchemaModifier predicates (SchemaModifier.ts) -/

/-- SchemaModifier.isReferenceObject: the node carries a ref key. -/
def isReferenceObject (n : Node) : Bool := n.ref.isSome

/-- SchemaModifier.isEmptyObjectSchema (lines 97 to 106): type object and
none of properties, allOf, anyOf, oneOf, ref present. -/
def isEmptyObjectSchema (n : Node) : Bool :=
  n.type == some "object" &&
  n.properties.isNone &&
  n.allOf.isNone &&
  n.anyOf.isNone &&
  n.oneOf.isNone &&
  n.ref.isNone

/-- SchemaModifier.isArraySchemaObject: type array and an items key. -/
def isArraySchemaObject (n : Node) : Bool :=
  n.type == some "array" && n.items.isSome

/-! ### Per-node rewrite rules of SchemaModifier.ts -/

/-- SchemaModifier.handleAdditionalPropertiesUndefined (lines 73 to 78):
when additionalProperties is the literal true, or a schema matching
isEmptyObjectSchema, set type to object and delete additionalProperties. -/
def handleAdditionalPropertiesUndefined (n : Node) : Node :=
  match n.additionalProperties with
  | some (.abool true) =>
    (n.withData { n.data with type := some "object" }).withAP none
  | some (.aschema m) =>
    if isEmptyObjectSchema m then
      (n.withData { n.data with type := some "object" }).withAP none
    else n
  | _ => n

/-- SchemaModifier.handleOneOfConst (lines 86 to 96): every oneOf member
that is not a reference, has type string and carries a const is turned
into type boolean with a generated title, and its const is deleted. -/
def handleOneOfConst (schemaName : String) (n : Node) : Node :=
  match n.oneOf with
  | none => n
  | some l =>
    n.withOneOf (some (l.map (fun item =>
      match item.ref, item.type, item.constV with
      | none, some "string", some cv =>
        item.withData { item.data with
          type := some "boolean"
          title := some (compressMultipleUnderscores (schemaName ++ "_" ++ cv))
          constV := none }
      | _, _, _ => item)))

/-- SchemaModifier.collapseSingleItemOneOf (lines 137 to 143): a oneOf
with exactly one member is merged into the parent by Object.assign and
the oneOf key is deleted afterwards. -/
def collapseSingleItemOneOf (n : Node) : Node :=
  match n.oneOf with
  | some [m] => (assign n m).withOneOf none
  | _ => n

/-- Deep structural equality of nodes (lodash isEqual), with fuel to make
the nested recursion structural; at fuel zero the comparison fails. -/
def beqNode : Nat → Node → Node → Bool
  | 0, _, _ => false
  | f + 1, n, m =>
    let obeq : Option Node → Option Node → Bool := fun a b =>
      match a, b with
      | none, none => true
      | some x, some y => beqNode f x y
      | _, _ => false
    let lbeq : Option (List Node) → Option (List Node) → Bool := fun a b =>
      match a, b with
      | none, none => true
      | some xs, some ys =>
        xs.length == ys.length && (xs.zip ys).all (fun p => beqNode f p.1 p.2)
      | _, _ => false
    let pbeq : Option (List (String × Node)) → Option (List (String × Node)) → Bool := fun a b =>
      match a, b with
      | none, none => true
      | some xs, some ys =>
        xs.length == ys.length &&
          (xs.zip ys).all (fun p => p.1.1 == p.2.1 && beqNode f p.1.2 p.2.2)
      | _, _ => false
    let abeq : Option APValue → Option APValue → Bool := fun a b =>
      match a, b with
      | none, none => true
      | some (.abool x), some (.abool y) => x == y
      | some (.aschema x), some (.aschema y) => beqNode f x y
      | _, _ => false
    n.data == m.data &&
    pbeq n.properties m.properties &&
    abeq n.additionalProperties m.additionalProperties &&
    obeq n.items m.items &&
    lbeq n.oneOf m.oneOf &&
    lbeq n.anyOf m.anyOf &&
    lbeq n.allOf m.allOf &&
    obeq n.propertyNames m.propertyNames

/-- The projection destructured in collapseOrMergeOneOfArray: the type,
ref and additionalProperties keys of a node.  Two projections are
compared for equality in place of the equality of their JSON
serialisations (the embedding's nodes have a canonical key order, so the
two notions agree). -/
def tripleOf (n : Node) : Option String × Option String × Option APValue :=
  (n.type, n.ref, n.additionalProperties)

/-- Equality of two projections, using fuelled node equality inside an
additionalProperties schema. -/
def tripleBeq (f : Nat) :
    Option String × Option String × Option APValue →
    Option String × Option String × Option APValue → Bool :=
  fun a b =>
    a.1 == b.1 && a.2.1 == b.2.1 &&
    (match a.2.2, b.2.2 with
     | none, none => true
     | some (.abool x), some (.abool y) => x == y
     | some (.aschema x), some (.aschema y) => beqNode f x y
     | _, _ => false)

/-- The splice of collapseOrMergeOneOfArray: remove the member at the
first index deeply equal to x (findIndex of isEqual); a findIndex miss
yields minus one and JavaScript splice of minus one removes the last
element. -/
def eraseFirstBeq (f : Nat) (l : List Node) (x : Node) : List Node :=
  match l.findIdx? (fun y => beqNode f y x) with
  | some j => l.eraseIdx j
  | none => l.dropLast

/-- The second loop of collapseOrMergeOneOfArray, modelling JavaScript
iteration over the live array: the iterator index advances by one every
step even when the current element was spliced out, so the element that
slides into the removed slot is skipped.  The step count bounds the
iteration; the loop stops once the index reaches the current length. -/
def cmLoop (f : Nat) (aset : List (Option String × Option String × Option APValue)) :
    Nat → Nat → List Node → List Node
  | 0, _, l => l
  | k + 1, i, l =>
    match l.get? i with
    | none => l
    | some x =>
      if aset.any (fun t => tripleBeq f t (tripleOf x)) then
        cmLoop f aset k (i + 1) (eraseFirstBeq f l x)
      else
        cmLoop f aset k (i + 1) l

/-- SchemaModifier.collapseOrMergeOneOfArray (lines 111 to 135): for a
non-reference node with a oneOf, collect the projections of the items of
every array-schema member, then iterate the live member list removing
each member whose own projection matches a collected one, and finally
collapse a single-member oneOf. -/
def collapseOrMergeOneOfArray (f : Nat) (n : Node) : Node :=
  if n.ref.isNone then
    match n.oneOf with
    | none => n
    | some l =>
      let aset := l.filterMap (fun m =>
        if isArraySchemaObject m then m.items.map tripleOf else none)
      collapseSingleItemOneOf (n.withOneOf (some (cmLoop f aset l.length 0 l)))
  else n

/-- Serialisation of a node in the embedding's canonical key order,
standing in for JSON.stringify in the title-collapse heuristic; fuelled
to make the nested recursion structural. -/
def stringifyN : Nat → Node → String
  | 0, _ => ""
  | f + 1, n =>
    let q : String → String := fun s => "\"" ++ s ++ "\""
    let fld : String → Option String → String := fun k v =>
      match v with
      | none => ""
      | some s => q k ++ ":" ++ q s ++ ","
    let nfld : String → Option Nat → String := fun k v =>
      match v with
      | none => ""
      | some m => q k ++ ":" ++ toString m ++ ","
    let sub : String → Option Node → String := fun k v =>
      match v with
      | none => ""
      | some m => q k ++ ":" ++ stringifyN f m ++ ","
    let subs : String → Option (List Node) → String := fun k v =>
      match v with
      | none => ""
      | some ms => q k ++ ":[" ++ String.intercalate "," (ms.map (stringifyN f)) ++ "],"
    "\x7b" ++
      fld "$ref" n.ref ++
      fld "type" n.type ++
      fld "title" n.title ++
      fld "const" n.constV ++
      (match n.data.enumV with
       | none => ""
       | some es => q "enum" ++ ":[" ++ String.intercalate "," (es.map q) ++ "],") ++
      (match n.properties with
       | none => ""
       | some ps => q "properties" ++ ":\x7b" ++
           String.intercalate "," (ps.map (fun kp => q kp.1 ++ ":" ++ stringifyN f kp.2)) ++ "\x7d,") ++
      (match n.additionalProperties with
       | none => ""
       | some (.abool b) => q "additionalProperties" ++ ":" ++ toString b ++ ","
       | some (.aschema m) => q "additionalProperties" ++ ":" ++ stringifyN f m ++ ",") ++
      sub "items" n.items ++
      subs "oneOf" n.oneOf ++
      subs "anyOf" n.anyOf ++
      subs "allOf" n.allOf ++
      nfld "minProperties" n.minProperties ++
      nfld "maxProperties" n.maxProperties ++
      sub "propertyNames" n.propertyNames ++
    "\x7d"

/-- Substring test over character lists, modelling String.includes. -/
def containsSub (hay pat : String) : Bool :=
  hay.data.tails.any (fun t => pat.data.isPrefixOf t)

/-- The property match inside tryCollapseIfMatching: a property schema
matches when its ref is present, non-empty, and contained in the
serialised titled member, or else when its type is present, non-empty,
and so contained. -/
def matchProp (titleContent : String) (p : Node) : Bool :=
  match p.ref with
  | some r => if r != "" && containsSub titleContent r then true
              else (match p.type with
                    | some t => t != "" && containsSub titleContent t
                    | none => false)
  | none => match p.type with
            | some t => t != "" && containsSub titleContent t
            | none => false

/-- The search inside tryCollapseIfMatching (lines 211 to 232): whether
the serialised titled member contains the ref or type of the property
named by the title, looked up in the members of the resolved node's
allOf, or in the properties of a plain object whose matching property is
a reference. -/
def titleMatchFound (comps : Doc) (nameStr titleContent : String) (c : Node) : Bool :=
  match c.allOf with
  | some subs =>
    subs.any (fun sb =>
      match resolveObj comps sb with
      | some so =>
        (match so.properties with
         | some props =>
           (match props.lookup nameStr with
            | some p => matchProp titleContent p
            | none => false)
         | none => false)
      | none => false)
  | none =>
    if c.type == some "object" && c.properties.isSome then
      match (c.properties.getD []).lookup nameStr with
      | some p => if p.ref.isSome then matchProp titleContent p else false
      | none => false
    else false

/-- SchemaModifier.tryCollapseIfMatching (lines 194 to 241): when the
titled member's serialisation matches per titleMatchFound, splice the
titled member out of the oneOf, delete oneOf, and merge the remaining
member into the node; none means no collapse happened and the node is
unchanged. -/
def tryCollapseIfMatching (sf : Nat) (comps : Doc) (schema simple complex : Node)
    (indexOfSimple : Nat) : Option Node :=
  match simple.title with
  | none => none
  | some nameStr =>
    let titleContent := stringifyN sf simple
    match resolveObj comps complex with
    | none => none
    | some c =>
      if titleMatchFound comps nameStr titleContent c then
        match schema.oneOf with
        | some l =>
          let l' := l.eraseIdx indexOfSimple
          match l'.head? with
          | some remaining => some (assign (schema.withOneOf none) remaining)
          | none => some (schema.withOneOf none)
        | none => some schema
      else none

/-- SchemaModifier.CollapseOneOfObjectPropContainsTitleSchema (lines 184
to 192): only for a oneOf of exactly two members, try the collapse with
either member in the role of the titled one. -/
def collapseOneOfTitle (sf : Nat) (comps : Doc) (n : Node) : Node :=
  match n.oneOf with
  | some [a, b] =>
    (match tryCollapseIfMatching sf comps n a b 0 with
     | some n' => n'
     | none =>
       match tryCollapseIfMatching sf comps n b a 1 with
       | some n' => n'
       | none => n)
  | _ => n

/-- SchemaModifier.handleMinMaxProperties (lines 52 to 69): an object
node with minProperties one, maxProperties one and a properties key gets
the schema-level extension flag, and each of its properties gets the
property-level flag and the generated note listing the property names. -/
def handleMinMaxProperties (n : Node) : Node :=
  if n.type == some "object" && n.minProperties == some 1 &&
     n.maxProperties == some 1 && n.properties.isSome then
    let props := n.properties.getD []
    let note := String.intercalate ", " (props.map (·.1)) ++ " are mutual exclusive"
    let props' := props.map (fun kp =>
      (kp.1, kp.2.withData { kp.2.data with
        xOneOfProperty := some true
        xOneOfNote := some note }))
    (n.withProps (some props')).withData { n.data with xOneOfModel := some true }
  else n

/-- SchemaModifier.cloneAdditionalPropertySchema (lines 243 to 258): a
fresh object node with a single string property named field. -/
def cloneAdditionalPropertySchema : Node :=
  (typeNode "object").withProps (some [("field", typeNode "string")])

/-- Append a member to the allOf of a node. -/
def pushAllOf (n : Node) (m : Node) : Node :=
  n.withAllOf (some (n.allOf.getD [] ++ [m]))

/-- Delete additionalProperties, minProperties, maxProperties and
propertyNames, the closing statements of transformPropertyNamesSchema. -/
def clearFour (n : Node) : Node :=
  (((n.withAP none).withData
    { n.data with minProperties := none, maxProperties := none }).withPN none)

/-- SchemaModifier.transformPropertyNamesSchema (lines 154 to 181): on an
object node with minProperties one, maxProperties one and a schema-valued
additionalProperties, resolve the additionalProperties against the root;
when the resolution has an allOf, push a fresh field-wrapper onto that
allOf (updating the component registry when the additionalProperties was
a reference) and merge the additionalProperties value into the node; when
it is an object with properties, merge the additionalProperties value
into the node; when it is an integer, merge a fresh wrapper whose value
property is the resolution; in every case, including when the resolution
fails or matches no shape, delete additionalProperties, minProperties,
maxProperties and propertyNames. -/
def transformPropertyNamesSchema (comps : Doc) (n : Node) : Doc × Node :=
  match n.additionalProperties with
  | some (.aschema apv) =>
    if n.type == some "object" && n.minProperties == some 1 && n.maxProperties == some 1 then
      let step : Doc × Node :=
        match resolveObj comps apv with
        | some c =>
          if c.allOf.isSome then
            match apv.ref with
            | some r =>
              (setAssoc comps (refName r) (pushAllOf c cloneAdditionalPropertySchema),
               assign n apv)
            | none =>
              (comps, assign n (pushAllOf apv cloneAdditionalPropertySchema))
          else if c.type == some "object" && c.properties.isSome then
            (comps, assign n apv)
          else if c.type == some "integer" then
            (comps, assign n ((typeNode "object").withProps
              (some [("field", typeNode "string"), ("value", c)])))
          else (comps, n)
        | none => (comps, n)
      (step.1, clearFour step.2)
    else (comps, n)
  | _ => (comps, n)

/-! ### The tree walker and the three-phase pipeline (modify, lines 18 to 50)

The walker itself, utils/OpenApiTraverser.ts, is not among the sources;
it is modelled from the specification's tree-walker description (a
post-order traversal over named component schemas, inline properties,
array items, additionalProperties values and composite members) and from
the walker's own test suite, which fixes the hook placement: component
schemas fire onSchema, property values and array items fire
onSchemaProperty, composite members fire onSchema, additionalProperties
values are recursed into but fire no hook, and reference nodes are
skipped entirely.  propertyNames values are not among the traversed
locations.  modify registers, in phase one, onSchema as handleOneOfConst,
collapseOrMergeOneOfArray, handleAdditionalPropertiesUndefined and the
title collapse in that order, and onSchemaProperty as
handleAdditionalPropertiesUndefined then collapseOrMergeOneOfArray; in
phase two both hooks run transformPropertyNamesSchema; in phase three
only onSchema runs handleMinMaxProperties. -/

/-- Which hook a visited location fires: a named component schema
(onSchema), a property value or array item (onSchemaProperty), a
composite member (onSchema), or an additionalProperties value (no hook). -/
inductive HookKind where
  | top
  | propItem
  | member
  | nohook
  deriving DecidableEq, Repr

/-- The phase-one hook suite of a location, after its children were
rewritten. -/
def phase1Suite (f : Nat) (comps : Doc) (name : String) : HookKind → Node → Node
  | .top, n =>
    collapseOneOfTitle f comps
      (handleAdditionalPropertiesUndefined
        (collapseOrMergeOneOfArray f (handleOneOfConst name n)))
  | .member, n =>
    collapseOneOfTitle f comps
      (handleAdditionalPropertiesUndefined
        (collapseOrMergeOneOfArray f (handleOneOfConst name n)))
  | .propItem, n =>
    collapseOrMergeOneOfArray f (handleAdditionalPropertiesUndefined n)
  | .nohook, n => n

/-- Phase one at one location: skip references, rewrite the children in
post-order, then fire the location's hook suite. -/
def phase1Walk (comps : Doc) (name : String) : Nat → HookKind → Node → Node
  | 0, _, n => n
  | f + 1, hk, n =>
    if n.ref.isSome then n
    else
      match n with
      | .mk d p a i o an al pn =>
        let n₁ : Node := .mk d
          (p.map (List.map (fun kp => (kp.1, phase1Walk comps name f .propItem kp.2))))
          (a.map (fun v =>
            match v with
            | .abool b => .abool b
            | .aschema m => .aschema (phase1Walk comps name f .nohook m)))
          (i.map (phase1Walk comps name f .propItem))
          (o.map (List.map (phase1Walk comps name f .member)))
          (an.map (List.map (phase1Walk comps name f .member)))
          (al.map (List.map (phase1Walk comps name f .member)))
          pn
        phase1Suite f comps name hk n₁

/-- Thread a document state through the rewrite of a list. -/
def mapState {α : Type} (g : Doc → α → Doc × α) : Doc → List α → Doc × List α
  | comps, [] => (comps, [])
  | comps, x :: xs =>
    let (c₁, x') := g comps x
    let (c₂, xs') := mapState g c₁ xs
    (c₂, x' :: xs')

/-- Thread the document state through the rewrite of an optional node. -/
def optNodeState (g : Doc → Node → Doc × Node) (c : Doc) : Option Node → Doc × Option Node
  | none => (c, none)
  | some m =>
    let r := g c m
    (r.1, some r.2)

/-- Thread the document state through the rewrite of an optional list. -/
def optListState {α : Type} (g : Doc → α → Doc × α) (c : Doc) :
    Option (List α) → Doc × Option (List α)
  | none => (c, none)
  | some xs =>
    let r := mapState g c xs
    (r.1, some r.2)

/-- Phase two at one location: skip references, rewrite the children in
post-order threading the component registry, then run
transformPropertyNamesSchema unless the location is an
additionalProperties value. -/
def phase2Walk : Nat → Doc → HookKind → Node → Doc × Node
  | 0, comps, _, n => (comps, n)
  | f + 1, comps, hk, n =>
    if n.ref.isSome then (comps, n)
    else
      match n with
      | .mk d p a i o an al pn =>
        let rp : Doc × Option (List (String × Node)) :=
          optListState (fun (c : Doc) (kp : String × Node) =>
            let r' := phase2Walk f c .propItem kp.2
            (r'.1, (kp.1, r'.2))) comps p
        let ri : Doc × Option Node :=
          optNodeState (fun c m => phase2Walk f c .propItem m) rp.1 i
        let ra : Doc × Option APValue :=
          match a with
          | some (.aschema m) =>
            let r := phase2Walk f ri.1 .nohook m
            (r.1, some (.aschema r.2))
          | x => (ri.1, x)
        let ral : Doc × Option (List Node) :=
          optListState (fun c m => phase2Walk f c .member m) ra.1 al
        let ran : Doc × Option (List Node) :=
          optListState (fun c m => phase2Walk f c .member m) ral.1 an
        let ro : Doc × Option (List Node) :=
          optListState (fun c m => phase2Walk f c .member m) ran.1 o
        let n₁ : Node := .mk d rp.2 ra.2 ri.2 ro.2 ran.2 ral.2 pn
        match hk with
        | .nohook => (ro.1, n₁)
        | _ => transformPropertyNamesSchema ro.1 n₁

/-- Phase three at one location: skip references, rewrite the children,
then fire handleMinMaxProperties on named schemas and composite members
(the only phase-three hook registered is onSchema). -/
def phase3Walk : Nat → HookKind → Node → Node
  | 0, _, n => n
  | f + 1, hk, n =>
    if n.ref.isSome then n
    else
      match n with
      | .mk d p a i o an al pn =>
        let n₁ : Node := .mk d
          (p.map (List.map (fun kp => (kp.1, phase3Walk f .propItem kp.2))))
          (a.map (fun v =>
            match v with
            | .abool b => .abool b
            | .aschema m => .aschema (phase3Walk f .nohook m)))
          (i.map (phase3Walk f .propItem))
          (o.map (List.map (phase3Walk f .member)))
          (an.map (List.map (phase3Walk f .member)))
          (al.map (List.map (phase3Walk f .member)))
          pn
        match hk with
        | .top => handleMinMaxProperties n₁
        | .member => handleMinMaxProperties n₁
        | _ => n₁

/-- One traversal phase over the named components, visiting them in
order; each component is rewritten against the registry state left by
the components before it. -/
def phase1Doc (fuel : Nat) (d : Doc) : Doc :=
  (d.map (·.1)).foldl (fun acc nm =>
    match acc.lookup nm with
    | none => acc
    | some v => setAssoc acc nm (phase1Walk acc nm fuel .top v)) d

/-- The second traversal phase, threading the registry through both the
reads and the allOf pushes of transformPropertyNamesSchema. -/
def phase2Doc (fuel : Nat) (d : Doc) : Doc :=
  (d.map (·.1)).foldl (fun acc nm =>
    match acc.lookup nm with
    | none => acc
    | some v =>
      let (c, v') := phase2Walk fuel acc .top v
      setAssoc c nm v') d

/-- The third traversal phase. -/
def phase3Doc (fuel : Nat) (d : Doc) : Doc :=
  (d.map (·.1)).foldl (fun acc nm =>
    match acc.lookup nm with
    | none => acc
    | some v => setAssoc acc nm (phase3Walk fuel .top v)) d

/-- SchemaModifier.modify (lines 18 to 50): the three traversal phases in
order, over the same document. -/
def modifyF (fuel : Nat) (d : Doc) : Doc :=
  phase3Doc fuel (phase2Doc fuel (phase1Doc fuel d))

/-! ### SpecificationContext (utils/SpecificationVisitor.ts) -/

/-- SpecificationContext (lines 103 to 144): an immutable file name plus
the accumulated location path. -/
structure SpecCtx where
  file : String
  segs : List String

/-- SpecificationContext.child (lines 117 to 119): a new context whose
path extends the receiver's by one segment. -/
def SpecCtx.child (ctx : SpecCtx) (key : String) : SpecCtx :=
  ⟨ctx.file, ctx.segs ++ [key]⟩

/-- The first replaceAll of the location getter: every tilde becomes
tilde-zero. -/
def escTilde : List Char → List Char
  | [] => []
  | c :: cs => (if c = '~' then ['~', '0'] else [c]) ++ escTilde cs

/-- The second replaceAll of the location getter: every slash becomes
tilde-one. -/
def escSlash : List Char → List Char
  | [] => []
  | c :: cs => (if c = '/' then ['~', '1'] else [c]) ++ escSlash cs

/-- SpecificationContext.location (lines 129 to 135): each segment is
passed through the two replaceAll calls in order and the results are
joined with slashes. -/
def SpecCtx.location (ctx : SpecCtx) : String :=
  String.intercalate "/" (ctx.segs.map (fun s => ⟨escSlash (escTilde s.data)⟩))

/-- The JSON-Pointer escape as the specification states it: one
simultaneous character map sending tilde to tilde-zero and slash to
tilde-one. -/
def escPointer : List Char → List Char
  | [] => []
  | c :: cs =>
    (if c = '~' then ['~', '0'] else if c = '/' then ['~', '1'] else [c]) ++ escPointer cs

/-! ### Concrete documents used by the claim theorems -/

/-- An inline string schema carrying a const, a oneOf member of the
const-to-enum scenario. -/
def constMember (c : String) : Node := dataNode { type := some "string", constV := some c }

/-- An array schema with the given items. -/
def arrOf (t : Node) : Node := (typeNode "array").withItems (some t)

/-- Scenario 1 input: one component whose additionalProperties is the
literal true. -/
def exDocAP : Doc := [("A", (dataNode {}).withAP (some (.abool true)))]

/-- Scenario 2 input: one component whose oneOf members are string
schemas with consts a and b. -/
def exDocConst : Doc :=
  [("S", (dataNode {}).withOneOf (some [constMember "a", constMember "b"]))]

/-- A document with two identical string members and one matching array
member in a oneOf; the live-array splice skips the second string member. -/
def exDocSkip : Doc :=
  [("X", (dataNode {}).withOneOf
    (some [typeNode "string", typeNode "string", arrOf (typeNode "string")]))]

/-- A document with a single-member allOf. -/
def exDocAllOf : Doc := [("F", (dataNode {}).withAllOf (some [typeNode "string"]))]

/-- The SortOrder enum component of the single-map scenario. -/
def sortOrder : Node := dataNode { type := some "string", enumV := some ["asc", "desc"] }

/-- Scenario 4 input: SortOrder plus a single-map object whose
additionalProperties references it. -/
def exDocMap : Doc :=
  [("SortOrder", sortOrder),
   ("TestMap",
     ((dataNode { type := some "object", minProperties := some 1, maxProperties := some 1 }).withAP
       (some (.aschema (bareRef "#/components/schemas/SortOrder")))))]

/-- Scenario 3 input: a oneOf of a string schema and an array of
strings. -/
def exDocScen3 : Doc :=
  [("S", (dataNode {}).withOneOf (some [typeNode "string", arrOf (typeNode "string")]))]

/-- A oneOf whose array member of nested arrays matches the other array
member's item shape: the string member and the plain array member are
both dropped. -/
def exDocArrArr : Doc :=
  [("S", (dataNode {}).withOneOf
    (some [typeNode "string", arrOf (arrOf (typeNode "string")), arrOf (typeNode "string")]))]

/-- An object with maxProperties one but no minProperties, with two
declared properties. -/
def exDocMax : Doc :=
  [("S", ((dataNode { type := some "object", maxProperties := some 1 }).withProps
    (some [("f1", typeNode "string"), ("f2", typeNode "number")])))]

/-- A composed object whose allOf branch carries maxProperties one. -/
def exDocMaxAllOf : Doc :=
  [("T", (dataNode {}).withAllOf
    (some [((dataNode { maxProperties := some 1 }).withProps
             (some [("field1", typeNode "string")])),
           (dataNode {}).withProps (some [("meta", typeNode "string")])]))]

/-- A single-map shaped object whose additionalProperties reference does
not resolve. -/
def danglingMapNode : Node :=
  ((dataNode { type := some "object", minProperties := some 1, maxProperties := some 1 }).withAP
    (some (.aschema (bareRef "#/components/schemas/Missing"))))

/-- A document holding only the dangling single-map node. -/
def exDocDangling : Doc := [("A", danglingMapNode)]

/-- A document with a literal-true additionalProperties nested on an
additionalProperties value and another nested under propertyNames, the
two locations the walker does not hook. -/
def exDocHidden : Doc :=
  [("A", ((typeNode "object").withAP (some (.aschema
      ((((typeNode "object").withProps (some [("p", typeNode "string")])).withAP
        (some (.abool true)))))))),
   ("B", ((typeNode "object").withPN (some ((typeNode "object").withAP
      (some (.abool true))))))]

/-! ### Invariant predicates for the additional-properties property -/

/-- A node is locally clean when its additionalProperties key is neither
the literal true nor a schema matching isEmptyObjectSchema, the shape
the specification's additional-properties invariant bans. -/
def CleanB (n : Node) : Bool :=
  match n.additionalProperties with
  | some (.abool true) => false
  | some (.aschema m) => !isEmptyObjectSchema m
  | _ => true

/-- The children of a node living at locations the walker hooks:
property values, array items and composite members. -/
def childHooked (n : Node) : List Node :=
  (n.properties.getD []).map (·.2) ++ n.items.toList ++
  (n.oneOf.getD []) ++ (n.anyOf.getD []) ++ (n.allOf.getD [])

/-- The schema-valued additionalProperties child of a node, if any. -/
def apChild (n : Node) : Option Node :=
  match n.additionalProperties with
  | some (.aschema m) => some m
  | _ => none

/-- A reference node carrying nothing but its ref string, the shape of
OpenAPIV3.ReferenceObject. -/
def bareB (n : Node) : Bool :=
  n.data.type.isNone && n.data.title.isNone && n.data.constV.isNone &&
  n.data.enumV.isNone && n.data.minProperties.isNone && n.data.maxProperties.isNone &&
  n.data.xOneOfModel.isNone && n.data.xOneOfProperty.isNone && n.data.xOneOfNote.isNone &&
  n.properties.isNone && n.additionalProperties.isNone && n.items.isNone &&
  n.oneOf.isNone && n.anyOf.isNone && n.allOf.isNone && n.propertyNames.isNone

/-- Every node of the subtree, through every child position, is locally
clean: the conclusion of the additional-properties invariant. -/
inductive DeepClean : Node → Prop where
  | intro : ∀ n, CleanB n = true →
      (∀ c ∈ childHooked n, DeepClean c) →
      (∀ c, apChild n = some c → DeepClean c) →
      (∀ c, n.propertyNames = some c → DeepClean c) →
      DeepClean n

/-- The precondition of the amended invariant: reference nodes are bare
references, and the subtrees at the locations the walker never hooks
(schema-valued additionalProperties values and propertyNames values) are
already deeply clean; nodes at hooked locations may be arbitrarily
dirty, the pipeline cleans them. -/
inductive PreOk : Node → Prop where
  | intro : ∀ n, (n.ref.isSome → bareB n = true) →
      (∀ c ∈ childHooked n, PreOk c) →
      (∀ c, apChild n = some c → DeepClean c) →
      (∀ c, n.propertyNames = some c → DeepClean c) →
      PreOk n

/-- All direct children of a node, through every child position, are
deeply clean; deep cleanliness of the node itself adds local
cleanliness on top of this. -/
def ChildrenDeep (n : Node) : Prop :=
  (∀ c ∈ childHooked n, DeepClean c) ∧
  (∀ c, apChild n = some c → DeepClean c) ∧
  (∀ c, n.propertyNames = some c → DeepClean c)

/-- Every component of a document is deeply clean. -/
def DocDeep (d : Doc) : Prop := ∀ kv ∈ d, DeepClean kv.2

/-- Every component of a document satisfies the precondition. -/
def PreOkDoc (d : Doc) : Prop := ∀ kv ∈ d, PreOk kv.2

/-- Executable deep-cleanliness checker over a whole subtree, fuelled;
used to exhibit concrete violations of the unamended invariant. -/
def deepCleanB : Nat → Node → Bool
  | 0, _ => false
  | f + 1, n =>
    CleanB n && (childHooked n).all (deepCleanB f) &&
    (match apChild n with
     | some c => deepCleanB f c
     | none => true) &&
    (match n.propertyNames with
     | some c => deepCleanB f c
     | none => true)

/-- The branch guards of transformPropertyNamesSchema on a resolution
result: none of them fires when the resolution failed, or when the
resolved node has no allOf, is not an object with properties, and is not
an integer. -/
def tpnBranchless : Option Node → Bool
  | none => true
  | some c =>
    c.allOf.isNone &&
    !(c.type == some "object" && c.properties.isSome) &&
    c.type != some "integer"

end ProtoConvert


namespace ProtoConvert

/-! ## Claim theorems -/

/-- C1: the claim says the pipeline registers a SortOrderSingleMap
component (a required two-field object) and replaces the single-map node
with a reference to it.  The pipeline of SchemaModifier.ts does not: on
the Scenario 4 document, transformPropertyNamesSchema deletes
additionalProperties, minProperties and maxProperties from the node,
leaving a bare object, and the output registry holds no
SortOrderSingleMap component at all. -/
theorem C1_single_map_component_not_generated :
    modifyF 32 exDocMap = [("SortOrder", sortOrder), ("TestMap", typeNode "object")] ∧
    (modifyF 32 exDocMap).lookup "SortOrderSingleMap" = none :=
  ⟨by rfl, by rfl⟩

/-- C2: the claim says a oneOf of string consts becomes type string with
an enum of the collected literals.  handleOneOfConst of SchemaModifier.ts
instead rewrites each const member in place to type boolean with a
generated title and keeps the oneOf: on the Scenario 2 document the
output member list is two boolean schemas titled S_a and S_b. -/
theorem C2_one_of_const_rewritten_to_boolean_titles :
    modifyF 32 exDocConst =
      [("S", (dataNode {}).withOneOf (some
        [dataNode { type := some "boolean", title := some "S_a" },
         dataNode { type := some "boolean", title := some "S_b" }]))] := by
  rfl

/-- C4: the claim says no oneOf, anyOf or allOf of length one survives
the pipeline.  Only collapseSingleItemOneOf exists in SchemaModifier.ts
and it handles oneOf alone: a component holding a single-member allOf
passes through the whole pipeline unchanged, its allOf still of length
one. -/
theorem C4_single_member_allOf_not_collapsed :
    modifyF 32 exDocAllOf = exDocAllOf ∧
    ((modifyF 32 exDocAllOf).lookup "F").bind Node.allOf = some [typeNode "string"] :=
  ⟨by rfl, by rfl⟩

/-- C5: the claim says running modify twice equals running it once.  The
second loop of collapseOrMergeOneOfArray splices the live member array
while iterating it, so the member sliding into a removed slot is
skipped: on a oneOf of two string members and a matching array member,
the first run removes only the first string member, and the second run
removes the survivor and collapses the oneOf to the array schema. -/
theorem C5_modify_not_idempotent :
    modifyF 32 (modifyF 32 exDocSkip) ≠ modifyF 32 exDocSkip ∧
    ((modifyF 32 exDocSkip).lookup "X").bind Node.oneOf =
      some [typeNode "string", arrOf (typeNode "string")] ∧
    ((modifyF 32 (modifyF 32 exDocSkip)).lookup "X").bind Node.oneOf = none := by
  refine ⟨?_, by rfl, by rfl⟩
  intro h
  have ha : ((modifyF 32 (modifyF 32 exDocSkip)).lookup "X").bind Node.oneOf = none := by rfl
  rw [h] at ha
  have hb : ((modifyF 32 exDocSkip).lookup "X").bind Node.oneOf =
      some [typeNode "string", arrOf (typeNode "string")] := by rfl
  rw [hb] at ha
  exact Option.noConfusion ha

/-- C6: the claim says every object node with maxProperties one is
tagged with the schema-level and property-level mutual-exclusivity
flags, and that the flag propagates up through a direct allOf wrapper.
handleMinMaxProperties of SchemaModifier.ts fires only when
minProperties is also one and never inspects allOf wrappers: both the
maxProperties-only component and the composed component pass through
modify unchanged, with no extension flag set anywhere. -/
theorem C6_max_properties_alone_not_tagged :
    modifyF 32 exDocMax = exDocMax ∧
    ((modifyF 32 exDocMax).lookup "S").map (fun n => n.data.xOneOfModel) = some none ∧
    modifyF 32 exDocMaxAllOf = exDocMaxAllOf ∧
    ((modifyF 32 exDocMaxAllOf).lookup "T").map (fun n => n.data.xOneOfModel) = some none :=
  ⟨by rfl, by rfl, by rfl, by rfl⟩

/-- C3 counterexample: the claim says no object node reachable from the
output document keeps a literal-true additionalProperties.  The walker
hooks neither the schema sitting directly as an additionalProperties
value nor anything under propertyNames, so a literal-true
additionalProperties at either location survives the whole pipeline: on
exDocHidden the output fails the deep cleanliness check, the
additionalProperties value of component A still carries
additionalProperties true, and so does the propertyNames value of
component B. -/
theorem C3_counterexample_hidden_dirty_nodes :
    ((modifyF 32 exDocHidden).all (fun kv => deepCleanB 32 kv.2)) = false ∧
    (((modifyF 32 exDocHidden).lookup "A").bind apChild).map CleanB = some false ∧
    (((modifyF 32 exDocHidden).lookup "B").bind Node.propertyNames).map CleanB = some false :=
  ⟨by rfl, by rfl, by rfl⟩

/-- C7 counterexample: the claim says the rewrite drops only the
non-array member.  On a oneOf holding a string member, an array of
nested arrays, and an array of strings, the projection of the plain
array member matches the item projection of the nested one, so the
rewrite drops the plain array member too: the input's array member
arrOf string is an array schema, yet the output collapses to the
nested-array schema alone, with no oneOf left. -/
theorem C7_counterexample_array_member_dropped :
    (arrOf (typeNode "string")) ∈ (((exDocArrArr.lookup "S").bind Node.oneOf).getD []) ∧
    isArraySchemaObject (arrOf (typeNode "string")) = true ∧
    modifyF 32 exDocArrArr = [("S", arrOf (arrOf (typeNode "string")))] ∧
    ((modifyF 32 exDocArrArr).lookup "S").bind Node.oneOf = none := by
  refine ⟨?_, by rfl, by rfl, by rfl⟩
  show (arrOf (typeNode "string")) ∈
    [typeNode "string", arrOf (arrOf (typeNode "string")), arrOf (typeNode "string")]
  exact .tail _ (.tail _ (.head _))

/-- C8 counterexample: the claim says a node holding an unresolvable
reference is left unchanged by every reference-dependent rewrite.
transformPropertyNamesSchema deletes additionalProperties,
minProperties and maxProperties before giving up on the failed
resolution: the single-map node referencing the missing component
enters with minProperties one and leaves as a bare object. -/
theorem C8_counterexample_node_changed_on_unresolvable_ref :
    modifyF 32 exDocDangling = [("A", typeNode "object")] ∧
    (exDocDangling.lookup "A").map Node.minProperties = some (some 1) ∧
    ((modifyF 32 exDocDangling).lookup "A").map Node.minProperties = some none :=
  ⟨by rfl, by rfl, by rfl⟩

end ProtoConvert

namespace ProtoConvert

/-! ## General theorems -/

theorem escSlash_append (a b : List Char) :
    escSlash (a ++ b) = escSlash a ++ escSlash b := by
  induction a with
  | nil => rfl
  | cons c cs ih => simp [escSlash, ih]

theorem escSlash_escTilde (cs : List Char) :
    escSlash (escTilde cs) = escPointer cs := by
  induction cs with
  | nil => rfl
  | cons c cs ih =>
    by_cases h0 : c = '~'
    · subst h0; simp [escTilde, escPointer, escSlash_append, escSlash, ih]
    · by_cases h1 : c = '/'
      · subst h1; simp [escTilde, escPointer, escSlash_append, escSlash, ih]
      · simp [escTilde, escPointer, escSlash_append, escSlash, h0, h1, ih]

/-- C9: child extends the accumulated path by exactly the one given
segment, returning a new context value with the same file (the
embedding is pure, so the parent context is untouched); and location
renders the path by the JSON-Pointer escape, each tilde becoming
tilde-zero and each slash tilde-one in one simultaneous character map,
segments joined with slashes. -/
theorem C9_context_child_and_location :
    (∀ (ctx : SpecCtx) (key : String),
      (ctx.child key).segs = ctx.segs ++ [key] ∧ (ctx.child key).file = ctx.file) ∧
    (∀ ctx : SpecCtx,
      ctx.location =
        String.intercalate "/" (ctx.segs.map (fun s => ⟨escPointer s.data⟩))) := by
  refine ⟨fun ctx key => ⟨rfl, rfl⟩, fun ctx => ?_⟩
  unfold SpecCtx.location
  congr 1
  apply List.map_congr_left
  intro s _
  exact congrArg String.mk (escSlash_escTilde s.data)

end ProtoConvert

namespace ProtoConvert

@[simp] theorem clearFour_ap (m : Node) : (clearFour m).additionalProperties = none := by
  cases m; rfl

@[simp] theorem clearFour_min (m : Node) : (clearFour m).minProperties = none := by
  cases m; rfl

@[simp] theorem clearFour_max (m : Node) : (clearFour m).maxProperties = none := by
  cases m; rfl

@[simp] theorem clearFour_pn (m : Node) : (clearFour m).propertyNames = none := by
  cases m; rfl

/-- The guard-true unfolding of transformPropertyNamesSchema: once the
object, additionalProperties, minProperties and maxProperties checks
hold, the result is the branch step followed by clearFour. -/
theorem tpn_guard_true (comps : Doc) (n apv : Node)
    (h1 : n.type = some "object")
    (h2 : n.additionalProperties = some (.aschema apv))
    (h3 : n.minProperties = some 1)
    (h4 : n.maxProperties = some 1) :
    transformPropertyNamesSchema comps n =
      (let step : Doc × Node :=
        match resolveObj comps apv with
        | some c =>
          if c.allOf.isSome then
            match apv.ref with
            | some r =>
              (setAssoc comps (refName r) (pushAllOf c cloneAdditionalPropertySchema),
               assign n apv)
            | none =>
              (comps, assign n (pushAllOf apv cloneAdditionalPropertySchema))
          else if c.type == some "object" && c.properties.isSome then
            (comps, assign n apv)
          else if c.type == some "integer" then
            (comps, assign n ((typeNode "object").withProps
              (some [("field", typeNode "string"), ("value", c)])))
          else (comps, n)
        | none => (comps, n)
       (step.1, clearFour step.2)) := by
  unfold transformPropertyNamesSchema
  rw [h2]
  simp only [h1, h3, h4, beq_self_eq_true, Bool.and_self, if_pos]

/-- C10: on any object node with minProperties one, maxProperties one
and a schema-valued additionalProperties, transformPropertyNamesSchema
unconditionally removes additionalProperties, minProperties,
maxProperties and propertyNames from the node; and when the resolved
additionalProperties matches none of the handled shapes (no allOf, not
an object with properties, not an integer) the rewrite does exactly
that and nothing else: the node is the input with the four keys
cleared, and the registry is untouched. -/
theorem C10_single_map_always_clears_constraints (comps : Doc) (n apv : Node)
    (h1 : n.type = some "object")
    (h2 : n.additionalProperties = some (.aschema apv))
    (h3 : n.minProperties = some 1)
    (h4 : n.maxProperties = some 1) :
    ((transformPropertyNamesSchema comps n).2.additionalProperties = none ∧
     (transformPropertyNamesSchema comps n).2.minProperties = none ∧
     (transformPropertyNamesSchema comps n).2.maxProperties = none ∧
     (transformPropertyNamesSchema comps n).2.propertyNames = none) ∧
    (tpnBranchless (resolveObj comps apv) = true →
      transformPropertyNamesSchema comps n = (comps, clearFour n)) := by
  rw [tpn_guard_true comps n apv h1 h2 h3 h4]
  refine ⟨⟨by simp, by simp, by simp, by simp⟩, fun hb => ?_⟩
  cases hres : resolveObj comps apv with
  | none => simp [hres]
  | some c =>
    rw [hres] at hb
    unfold tpnBranchless at hb
    simp only [Bool.and_eq_true, Bool.not_eq_true', bne_iff_ne] at hb
    obtain ⟨⟨hall, hobj⟩, hint⟩ := hb
    have hall' : c.allOf.isSome = false := by
      simp [Option.isNone_iff_eq_none.mp hall]
    have hint' : (c.type == some "integer") = false := by
      simpa using hint
    simp [hres, hall', hobj, hint']

end ProtoConvert

namespace ProtoConvert

/-- Witness for C10: the dangling single-map node satisfies every
hypothesis, its resolution fails so no branch fires, and the rewrite
returns the node with exactly the four keys cleared. -/
theorem C10_witness :
    danglingMapNode.type = some "object" ∧
    danglingMapNode.additionalProperties =
      some (.aschema (bareRef "#/components/schemas/Missing")) ∧
    danglingMapNode.minProperties = some 1 ∧
    danglingMapNode.maxProperties = some 1 ∧
    tpnBranchless (resolveObj [] (bareRef "#/components/schemas/Missing")) = true ∧
    transformPropertyNamesSchema [] danglingMapNode = ([], clearFour danglingMapNode) :=
  ⟨by rfl, by rfl, by rfl, by rfl, by rfl,
   (C10_single_map_always_clears_constraints [] danglingMapNode
     (bareRef "#/components/schemas/Missing") (by rfl) (by rfl) (by rfl) (by rfl)).2 (by rfl)⟩

end ProtoConvert

namespace ProtoConvert

/-- C8 amended: a reference-dependent rewrite meeting an unresolvable
reference degrades softly and never raises (every function of the
embedding is total by construction): the title collapse returns no
result and leaves the node as it was, while the single-map rewrite
skips its dependent transformation but still deletes
additionalProperties, minProperties, maxProperties and propertyNames
before moving on, leaving the registry untouched. -/
theorem C8_amended_unresolvable_ref_soft_skip :
    (∀ (sf : Nat) (comps : Doc) (schema simple complex : Node) (idx : Nat) (r : String),
      complex.ref = some r → comps.lookup (refName r) = none →
      tryCollapseIfMatching sf comps schema simple complex idx = none) ∧
    (∀ (comps : Doc) (n apv : Node) (r : String),
      n.type = some "object" → n.additionalProperties = some (.aschema apv) →
      n.minProperties = some 1 → n.maxProperties = some 1 →
      apv.ref = some r → comps.lookup (refName r) = none →
      transformPropertyNamesSchema comps n = (comps, clearFour n)) := by
  constructor
  · intro sf comps schema simple complex idx r hr hnone
    unfold tryCollapseIfMatching
    cases ht : simple.title with
    | none => rfl
    | some nm =>
      have : resolveObj comps complex = none := by
        unfold resolveObj
        rw [hr]
        exact hnone
      rw [this]
  · intro comps n apv r hr1 hr2 hr3 hr4 hr5 hnone
    rw [tpn_guard_true comps n apv hr1 hr2 hr3 hr4]
    have : resolveObj comps apv = none := by
      unfold resolveObj
      rw [hr5]
      exact hnone
    simp [this]

/-- Witness for C8 amended: a dangling reference as the second oneOf
member makes the title collapse a no-result, and the dangling
single-map node loses exactly its four constraint keys. -/
theorem C8_amended_witness :
    (bareRef "#/components/schemas/Missing").ref = some "#/components/schemas/Missing" ∧
    (List.lookup (refName "#/components/schemas/Missing") ([] : Doc)) = none ∧
    tryCollapseIfMatching 4 [] (dataNode {}) (dataNode { title := some "t" })
      (bareRef "#/components/schemas/Missing") 0 = none ∧
    transformPropertyNamesSchema [] danglingMapNode = ([], clearFour danglingMapNode) :=
  ⟨by rfl, by rfl,
   C8_amended_unresolvable_ref_soft_skip.1 4 [] (dataNode {}) (dataNode { title := some "t" })
     (bareRef "#/components/schemas/Missing") 0 "#/components/schemas/Missing" (by rfl) (by rfl),
   C8_amended_unresolvable_ref_soft_skip.2 [] danglingMapNode
     (bareRef "#/components/schemas/Missing") "#/components/schemas/Missing"
     (by rfl) (by rfl) (by rfl) (by rfl) (by rfl) (by rfl)⟩

end ProtoConvert

namespace ProtoConvert

theorem beqNode_dataNode_refl (f : Nat) (d : NodeData) :
    beqNode (f + 1) (dataNode d) (dataNode d) = true := by
  simp [beqNode, dataNode, Node.data, Node.properties, Node.additionalProperties,
    Node.items, Node.oneOf, Node.anyOf, Node.allOf, Node.propertyNames]

theorem cmLoop_stop (f : Nat) (aset : List (Option String × Option String × Option APValue))
    (k i : Nat) (l : List Node) (h : l[i]? = none) :
    cmLoop f aset (k + 1) i l = l := by
  simp [cmLoop, h]

theorem cmLoop_hit (f : Nat) (aset : List (Option String × Option String × Option APValue))
    (k i : Nat) (l : List Node) (x : Node) (hx : l[i]? = some x)
    (hm : aset.any (fun tr => tripleBeq f tr (tripleOf x)) = true) :
    cmLoop f aset (k + 1) i l = cmLoop f aset k (i + 1) (eraseFirstBeq f l x) := by
  simp [cmLoop, hx, hm]

/-- C7 amended: when the oneOf holds exactly one primitive member and
one array member whose items carry the primitive's type, the rewrite
drops the primitive member, the single survivor collapses, and the node
becomes the array schema (proved for every primitive type name); in the
general case the rewrite drops each member whose own type, ref and
additionalProperties projection matches the item projection of some
array member, whether or not the dropped member is itself an array
schema, and the in-place splice skips the member following each removal
(the counterexample exhibits an array member being dropped); Scenario 3
holds through the full pipeline. -/
theorem C7_amended_array_oneof_dedup :
    (∀ t : String,
      collapseOrMergeOneOfArray 8
        ((dataNode {}).withOneOf (some [typeNode t, arrOf (typeNode t)])) =
        arrOf (typeNode t)) ∧
    modifyF 32 exDocScen3 = [("S", arrOf (typeNode "string"))] := by
  refine ⟨fun t => ?_, by rfl⟩
  have haset : [typeNode t, arrOf (typeNode t)].filterMap
      (fun m => if isArraySchemaObject m then m.items.map tripleOf else none) =
      [tripleOf (typeNode t)] := by
    simp [isArraySchemaObject, typeNode, arrOf, dataNode, Node.type, Node.items,
      Node.data, Node.withItems, tripleOf]
  have hmem : [tripleOf (typeNode t)].any
      (fun tr => tripleBeq 8 tr (tripleOf (typeNode t))) = true := by
    simp [tripleBeq, tripleOf, typeNode, dataNode, Node.type, Node.ref,
      Node.additionalProperties, Node.data]
  have hself : beqNode 8 (typeNode t) (typeNode t) = true :=
    beqNode_dataNode_refl 7 { type := some t }
  have herase : eraseFirstBeq 8 [typeNode t, arrOf (typeNode t)] (typeNode t) =
      [arrOf (typeNode t)] := by
    simp [eraseFirstBeq, List.findIdx?_cons, hself]
  have hloop : cmLoop 8 [tripleOf (typeNode t)] 2 0 [typeNode t, arrOf (typeNode t)] =
      [arrOf (typeNode t)] := by
    rw [show (2 : Nat) = 1 + 1 from rfl]
    rw [cmLoop_hit 8 [tripleOf (typeNode t)] 1 0 [typeNode t, arrOf (typeNode t)]
      (typeNode t) rfl hmem]
    rw [herase]
    rw [show (1 : Nat) = 0 + 1 from rfl]
    exact cmLoop_stop 8 _ 0 1 _ rfl
  show collapseSingleItemOneOf
      (((dataNode {}).withOneOf (some [typeNode t, arrOf (typeNode t)])).withOneOf
        (some (cmLoop 8
          ([typeNode t, arrOf (typeNode t)].filterMap
            (fun m => if isArraySchemaObject m then m.items.map tripleOf else none))
          2 0 [typeNode t, arrOf (typeNode t)]))) = arrOf (typeNode t)
  rw [haset, hloop]
  rfl
end ProtoConvert

namespace ProtoConvert

/-! ## Toolkit for the additional-properties invariant -/

theorem DeepClean.clean {n : Node} (h : DeepClean n) : CleanB n = true := by
  cases h; assumption

theorem DeepClean.children {n : Node} (h : DeepClean n) : ChildrenDeep n := by
  cases h with
  | intro n hc hh ha hp => exact ⟨hh, ha, hp⟩

theorem deepClean_intro {n : Node} (hc : CleanB n = true) (h : ChildrenDeep n) :
    DeepClean n :=
  DeepClean.intro n hc h.1 h.2.1 h.2.2

theorem deepClean_dataNode (d : NodeData) : DeepClean (dataNode d) := by
  refine DeepClean.intro _ (by rfl) ?_ ?_ ?_ <;>
    simp [childHooked, apChild, dataNode, Node.properties, Node.items, Node.oneOf,
      Node.anyOf, Node.allOf, Node.additionalProperties, Node.propertyNames]

theorem bare_deepClean {n : Node} (h : bareB n = true) : DeepClean n := by
  cases n with
  | mk d p a i o an al pn =>
    simp only [bareB, Bool.and_eq_true, Option.isNone_iff_eq_none, Node.data,
      Node.properties, Node.additionalProperties, Node.items, Node.oneOf, Node.anyOf,
      Node.allOf, Node.propertyNames] at h
    obtain ⟨⟨⟨⟨⟨⟨⟨⟨⟨⟨⟨⟨⟨⟨⟨h1, h2⟩, h3⟩, h4⟩, h5⟩, h6⟩, h7⟩, h8⟩, h9⟩, hp⟩, ha⟩, hi⟩, ho⟩, han⟩, hal⟩, hpn⟩ := h
    subst hp ha hi ho han hal hpn
    refine DeepClean.intro _ (by rfl) ?_ ?_ ?_ <;>
      simp [childHooked, apChild, Node.properties, Node.items, Node.oneOf,
        Node.anyOf, Node.allOf, Node.additionalProperties, Node.propertyNames]

theorem deepClean_withData {n : Node} (d : NodeData) (h : DeepClean n) :
    DeepClean (n.withData d) := by
  cases n with
  | mk d0 p a i o an al pn =>
    have hc := h.clean
    have hh := h.children.1
    have ha := h.children.2.1
    have hp := h.children.2.2
    exact DeepClean.intro _ (by simpa [CleanB, Node.withData, Node.additionalProperties] using hc)
      (by simpa [childHooked, Node.withData, Node.properties, Node.items, Node.oneOf,
        Node.anyOf, Node.allOf] using hh)
      (by simpa [apChild, Node.withData, Node.additionalProperties] using ha)
      (by simpa [Node.withData, Node.propertyNames] using hp)

theorem lookup_mem {d : Doc} {k : String} {v : Node} (h : d.lookup k = some v) :
    (k, v) ∈ d := by
  induction d with
  | nil => simp [List.lookup] at h
  | cons kv rest ih =>
    rw [List.lookup] at h
    split at h
    · next heq =>
        cases kv with
        | mk a b =>
          have hk : k = a := beq_iff_eq.mp heq
          have hv : b = v := by injection h
          subst hk
          subst hv
          exact List.mem_cons_self _ _
    · exact List.mem_cons_of_mem _ (ih h)

theorem lookup_none_keys {d : Doc} {k : String} (h : d.lookup k = none) :
    ∀ kv ∈ d, (kv.1 == k) = false := by
  induction d with
  | nil => simp
  | cons kv rest ih =>
    rw [List.lookup] at h
    intro kv' hkv'
    split at h
    · exact absurd h (by simp)
    · next he =>
        rcases List.mem_cons.mp hkv' with h1 | h1
        · subst h1
          rw [BEq.comm]
          exact he
        · exact ih h kv' h1

theorem setAssoc_mem {d : Doc} {k : String} {v : Node} :
    ∀ kv ∈ setAssoc d k v, kv = (k, v) ∨ (kv ∈ d ∧ (kv.1 == k) = false) := by
  intro kv hkv
  unfold setAssoc at hkv
  by_cases hl : (d.lookup k).isSome
  · rw [if_pos hl] at hkv
    obtain ⟨kv0, hkv0, heq⟩ := List.mem_map.mp hkv
    by_cases he : (kv0.1 == k) = true
    · rw [if_pos he] at heq
      exact Or.inl heq.symm
    · rw [if_neg he] at heq
      exact Or.inr ⟨heq ▸ hkv0, heq ▸ (by simpa using he)⟩
  · rw [if_neg hl] at hkv
    rcases List.mem_append.mp hkv with h1 | h1
    · exact Or.inr ⟨h1, lookup_none_keys (Option.not_isSome_iff_eq_none.mp hl) _ h1⟩
    · simp at h1
      exact Or.inl h1

theorem docDeep_setAssoc {d : Doc} {k : String} {v : Node}
    (hd : DocDeep d) (hv : DeepClean v) : DocDeep (setAssoc d k v) := by
  intro kv hkv
  rcases setAssoc_mem kv hkv with h | ⟨h, _⟩
  · rw [h]; exact hv
  · exact hd kv h

end ProtoConvert

namespace ProtoConvert

theorem childHooked_assign {a b : Node} :
    ∀ c ∈ childHooked (assign a b), c ∈ childHooked a ∨ c ∈ childHooked b := by
  cases a with
  | mk da pa aa ia oa ana ala pna =>
    cases b with
    | mk db pb ab ib ob anb alb pnb =>
      intro c hc
      simp only [assign, childHooked, Node.properties, Node.items, Node.oneOf,
        Node.anyOf, Node.allOf, List.mem_append] at hc ⊢
      rcases hc with ((((h | h) | h) | h) | h)
      · cases pb <;> (simp [pick] at h ⊢) <;> tauto
      · cases ib <;> (simp [pick] at h ⊢) <;> tauto
      · cases ob <;> (simp [pick] at h ⊢) <;> tauto
      · cases anb <;> (simp [pick] at h ⊢) <;> tauto
      · cases alb <;> (simp [pick] at h ⊢) <;> tauto

theorem apChild_assign {a b : Node} :
    ∀ c, apChild (assign a b) = some c → apChild a = some c ∨ apChild b = some c := by
  cases a with
  | mk da pa aa ia oa ana ala pna =>
    cases b with
    | mk db pb ab ib ob anb alb pnb =>
      intro c hc
      simp only [assign, apChild, Node.additionalProperties] at hc ⊢
      cases ab with
      | none => exact Or.inl (by simpa [pick] using hc)
      | some v => exact Or.inr (by simpa [pick] using hc)

theorem pn_assign {a b : Node} :
    ∀ c, (assign a b).propertyNames = some c →
      a.propertyNames = some c ∨ b.propertyNames = some c := by
  cases a with
  | mk da pa aa ia oa ana ala pna =>
    cases b with
    | mk db pb ab ib ob anb alb pnb =>
      intro c hc
      simp only [assign, Node.propertyNames] at hc ⊢
      cases pnb with
      | none => exact Or.inl (by simpa [pick] using hc)
      | some v => exact Or.inr (by simpa [pick] using hc)

theorem cleanB_assign {a b : Node} (ha : CleanB a = true) (hb : CleanB b = true) :
    CleanB (assign a b) = true := by
  cases a with
  | mk da pa aa ia oa ana ala pna =>
    cases b with
    | mk db pb ab ib ob anb alb pnb =>
      simp only [CleanB, assign, Node.additionalProperties] at ha hb ⊢
      cases ab with
      | none => simpa [pick] using ha
      | some v => simpa [pick] using hb

theorem childrenDeep_assign {a b : Node} (ha : ChildrenDeep a) (hb : ChildrenDeep b) :
    ChildrenDeep (assign a b) := by
  refine ⟨fun c hc => ?_, fun c hc => ?_, fun c hc => ?_⟩
  · rcases childHooked_assign c hc with h | h
    · exact ha.1 c h
    · exact hb.1 c h
  · rcases apChild_assign c hc with h | h
    · exact ha.2.1 c h
    · exact hb.2.1 c h
  · rcases pn_assign c hc with h | h
    · exact ha.2.2 c h
    · exact hb.2.2 c h

theorem deepClean_assign {a b : Node} (ha : DeepClean a) (hb : DeepClean b) :
    DeepClean (assign a b) :=
  deepClean_intro (cleanB_assign ha.clean hb.clean)
    (childrenDeep_assign ha.children hb.children)

theorem childHooked_clearFour (m : Node) : childHooked (clearFour m) = childHooked m := by
  cases m; rfl

theorem clearFour_deep {m : Node} (h : ∀ c ∈ childHooked m, DeepClean c) :
    DeepClean (clearFour m) := by
  refine deepClean_intro ?_ ⟨?_, ?_, ?_⟩
  · cases m; rfl
  · rw [childHooked_clearFour]; exact h
  · intro c hc
    rw [show apChild (clearFour m) = none from by cases m ; rfl] at hc
    exact absurd hc (by simp)
  · intro c hc
    rw [clearFour_pn] at hc
    exact absurd hc (by simp)

theorem childHooked_pushAllOf {m x : Node} :
    ∀ c ∈ childHooked (pushAllOf m x), c ∈ childHooked m ∨ c = x := by
  cases m with
  | mk d p a i o an al pn =>
    intro c hc
    simp only [pushAllOf, childHooked, Node.withAllOf, Node.properties, Node.items,
      Node.oneOf, Node.anyOf, Node.allOf, List.mem_append] at hc ⊢
    rcases hc with ((((h | h) | h) | h) | h)
    · tauto
    · tauto
    · tauto
    · tauto
    · simp only [Option.getD_some, List.mem_append, List.mem_singleton] at h
      tauto

theorem deepClean_pushAllOf {m x : Node} (hm : DeepClean m) (hx : DeepClean x) :
    DeepClean (pushAllOf m x) := by
  refine deepClean_intro ?_ ⟨fun c hc => ?_, fun c hc => ?_, fun c hc => ?_⟩
  · have := hm.clean
    cases m with
    | mk d p a i o an al pn =>
      simpa [CleanB, pushAllOf, Node.withAllOf, Node.additionalProperties] using this
  · rcases childHooked_pushAllOf c hc with h | h
    · exact hm.children.1 c h
    · exact h ▸ hx
  · refine hm.children.2.1 c ?_
    cases m with
    | mk d p a i o an al pn =>
      simpa [apChild, pushAllOf, Node.withAllOf, Node.additionalProperties] using hc
  · refine hm.children.2.2 c ?_
    cases m with
    | mk d p a i o an al pn =>
      simpa [pushAllOf, Node.withAllOf, Node.propertyNames] using hc

end ProtoConvert

namespace ProtoConvert

theorem cleanB_handleAPUndef (n : Node) :
    CleanB (handleAdditionalPropertiesUndefined n) = true := by
  cases n with
  | mk d p a i o an al pn =>
    unfold handleAdditionalPropertiesUndefined CleanB
    cases a with
    | none => simp [Node.additionalProperties]
    | some v =>
      cases v with
      | abool b =>
        cases b <;>
          simp [Node.additionalProperties, Node.withData, Node.withAP, Node.data]
      | aschema m =>
        by_cases he : isEmptyObjectSchema m <;>
          simp [Node.additionalProperties, Node.withData, Node.withAP, Node.data, he]

theorem childrenDeep_handleAPUndef {n : Node} (h : ChildrenDeep n) :
    ChildrenDeep (handleAdditionalPropertiesUndefined n) := by
  cases n with
  | mk d p a i o an al pn =>
    unfold handleAdditionalPropertiesUndefined
    cases a with
    | none => exact h
    | some v =>
      cases v with
      | abool b =>
        cases b
        · exact h
        · refine ⟨fun c hc => h.1 c ?_, fun c hc => ?_, fun c hc => h.2.2 c ?_⟩
          · simpa [childHooked, Node.withData, Node.withAP, Node.properties, Node.items,
              Node.oneOf, Node.anyOf, Node.allOf] using hc
          · exact absurd hc (by simp [apChild, Node.withData, Node.withAP,
              Node.additionalProperties])
          · simpa [Node.withData, Node.withAP, Node.propertyNames] using hc
      | aschema m =>
        simp only [Node.additionalProperties]
        by_cases he : isEmptyObjectSchema m
        · rw [if_pos he]
          refine ⟨fun c hc => h.1 c ?_, fun c hc => ?_, fun c hc => h.2.2 c ?_⟩
          · simpa [childHooked, Node.withData, Node.withAP, Node.properties, Node.items,
              Node.oneOf, Node.anyOf, Node.allOf] using hc
          · exact absurd hc (by simp [apChild, Node.withData, Node.withAP,
              Node.additionalProperties])
          · simpa [Node.withData, Node.withAP, Node.propertyNames] using hc
        · rw [if_neg he]
          exact h

theorem cleanB_handleOneOfConst (nm : String) (n : Node) :
    CleanB (handleOneOfConst nm n) = CleanB n := by
  cases n with
  | mk d p a i o an al pn =>
    unfold handleOneOfConst
    cases o <;> simp [CleanB, Node.oneOf, Node.withOneOf, Node.additionalProperties]

theorem childrenDeep_handleOneOfConst (nm : String) {n : Node} (h : ChildrenDeep n) :
    ChildrenDeep (handleOneOfConst nm n) := by
  cases n with
  | mk d p a i o an al pn =>
    unfold handleOneOfConst
    cases o with
    | none => exact h
    | some l =>
      refine ⟨fun c hc => ?_, fun c hc => h.2.1 c ?_, fun c hc => h.2.2 c ?_⟩
      · simp only [childHooked, Node.withOneOf, Node.properties, Node.items, Node.oneOf,
          Node.anyOf, Node.allOf, List.mem_append, Option.getD_some] at hc
        rcases hc with ((((hc | hc) | hc) | hc) | hc)
        · exact h.1 c (by simp only [childHooked, Node.properties, Node.items, Node.oneOf,
            Node.anyOf, Node.allOf, List.mem_append]; tauto)
        · exact h.1 c (by simp only [childHooked, Node.properties, Node.items, Node.oneOf,
            Node.anyOf, Node.allOf, List.mem_append]; tauto)
        · obtain ⟨x, hx, hcx⟩ := List.mem_map.mp hc
          have hxl : x ∈ childHooked (Node.mk d p a i (some l) an al pn) := by
            simp only [childHooked, Node.properties, Node.items, Node.oneOf,
              Node.anyOf, Node.allOf, List.mem_append, Option.getD_some]
            tauto
          have hdx : DeepClean x := h.1 x hxl
          subst hcx
          split
          · exact deepClean_withData _ hdx
          · exact hdx
        · exact h.1 c (by simp only [childHooked, Node.properties, Node.items, Node.oneOf,
            Node.anyOf, Node.allOf, List.mem_append]; tauto)
        · exact h.1 c (by simp only [childHooked, Node.properties, Node.items, Node.oneOf,
            Node.anyOf, Node.allOf, List.mem_append]; tauto)
      · simpa [apChild, Node.withOneOf, Node.additionalProperties] using hc
      · simpa [Node.withOneOf, Node.propertyNames] using hc

theorem eraseFirstBeq_subset (f : Nat) (l : List Node) (x : Node) :
    ∀ c ∈ eraseFirstBeq f l x, c ∈ l := by
  unfold eraseFirstBeq
  intro c hc
  split at hc
  · exact (List.eraseIdx_sublist _ _).subset hc
  · exact (List.dropLast_sublist _).subset hc

theorem cmLoop_subset (f : Nat) (aset : List (Option String × Option String × Option APValue)) :
    ∀ (k i : Nat) (l : List Node), ∀ c ∈ cmLoop f aset k i l, c ∈ l := by
  intro k
  induction k with
  | zero => intro i l c hc; simpa [cmLoop] using hc
  | succ k ih =>
    intro i l c hc
    rw [cmLoop] at hc
    split at hc
    · exact hc
    · split at hc
      · exact eraseFirstBeq_subset f l _ c (ih _ _ c hc)
      · exact ih _ _ c hc

theorem cleanB_withOneOf (x : Node) (v : Option (List Node)) :
    CleanB (x.withOneOf v) = CleanB x := by
  cases x; rfl

theorem apChild_withOneOf (x : Node) (v : Option (List Node)) :
    apChild (x.withOneOf v) = apChild x := by
  cases x; rfl

theorem pn_withOneOf (x : Node) (v : Option (List Node)) :
    (x.withOneOf v).propertyNames = x.propertyNames := by
  cases x; rfl

theorem childHooked_withOneOf {x : Node} {v : List Node} :
    ∀ c ∈ childHooked (x.withOneOf (some v)), c ∈ childHooked x ∨ c ∈ v := by
  cases x with
  | mk d p a i o an al pn =>
    intro c hc
    simp only [childHooked, Node.withOneOf, Node.properties, Node.items, Node.oneOf,
      Node.anyOf, Node.allOf, List.mem_append, Option.getD_some] at hc ⊢
    tauto

theorem childHooked_withOneOf_none {x : Node} :
    ∀ c ∈ childHooked (x.withOneOf none), c ∈ childHooked x := by
  cases x with
  | mk d p a i o an al pn =>
    intro c hc
    simp only [childHooked, Node.withOneOf, Node.properties, Node.items, Node.oneOf,
      Node.anyOf, Node.allOf, List.mem_append, Option.getD_none, Option.getD_some] at hc ⊢
    tauto

theorem oneOf_member_childHooked {n : Node} {l : List Node} (ho : n.oneOf = some l) :
    ∀ m ∈ l, m ∈ childHooked n := by
  cases n with
  | mk d p a i o an al pn =>
    intro m hm
    simp only [Node.oneOf] at ho
    subst ho
    simp only [childHooked, Node.properties, Node.items, Node.oneOf, Node.anyOf,
      Node.allOf, List.mem_append, Option.getD_some]
    tauto

theorem collapseSingle_children {n : Node} (hcd : ChildrenDeep n)
    (hmem : ∀ c ∈ childHooked n, DeepClean c) :
    ChildrenDeep (collapseSingleItemOneOf n) := by
  unfold collapseSingleItemOneOf
  split
  · next m heq =>
    have hm : DeepClean m := hmem m (oneOf_member_childHooked heq m (by simp))
    have hass : ChildrenDeep (assign n m) :=
      childrenDeep_assign hcd hm.children
    refine ⟨fun c hc => hass.1 c (childHooked_withOneOf_none c hc), fun c hc => ?_,
      fun c hc => ?_⟩
    · exact hass.2.1 c (by rwa [apChild_withOneOf] at hc)
    · exact hass.2.2 c (by rwa [pn_withOneOf] at hc)
  · exact hcd

theorem collapseSingle_cleanB {n : Node} (hcb : CleanB n = true)
    (hmem : ∀ c ∈ childHooked n, DeepClean c) :
    CleanB (collapseSingleItemOneOf n) = true := by
  unfold collapseSingleItemOneOf
  split
  · next m heq =>
    have hm : DeepClean m := hmem m (oneOf_member_childHooked heq m (by simp))
    rw [cleanB_withOneOf]
    exact cleanB_assign hcb hm.clean
  · exact hcb

theorem collapseOrMerge_good (f : Nat) {n : Node} (hcd : ChildrenDeep n) :
    (CleanB n = true → CleanB (collapseOrMergeOneOfArray f n) = true) ∧
    ChildrenDeep (collapseOrMergeOneOfArray f n) := by
  unfold collapseOrMergeOneOfArray
  by_cases hr : n.ref.isNone
  · rw [if_pos hr]
    cases ho : n.oneOf with
    | none => exact ⟨fun h => h, hcd⟩
    | some l =>
      have hsub : ∀ c ∈ cmLoop f
          (l.filterMap (fun m => if isArraySchemaObject m then m.items.map tripleOf else none))
          l.length 0 l, c ∈ l :=
        fun c hc => cmLoop_subset f _ _ _ l c hc
      have hmem : ∀ c ∈ l, DeepClean c := by
        intro c hc
        refine hcd.1 c ?_
        cases n with
        | mk d p a i o an al pn =>
          simp only [Node.oneOf] at ho
          subst ho
          simp [childHooked, Node.oneOf, List.mem_append]
          tauto
      have hch₂ : ∀ c ∈ childHooked (n.withOneOf (some (cmLoop f
          (l.filterMap (fun m => if isArraySchemaObject m then m.items.map tripleOf else none))
          l.length 0 l))), DeepClean c := by
        intro c hc
        rcases childHooked_withOneOf c hc with h | h
        · exact hcd.1 c h
        · exact hmem c (hsub c h)
      have hcd₂ : ChildrenDeep (n.withOneOf (some (cmLoop f
          (l.filterMap (fun m => if isArraySchemaObject m then m.items.map tripleOf else none))
          l.length 0 l))) :=
        ⟨hch₂, fun c hc => hcd.2.1 c (by rwa [apChild_withOneOf] at hc),
         fun c hc => hcd.2.2 c (by rwa [pn_withOneOf] at hc)⟩
      constructor
      · intro hcb
        exact collapseSingle_cleanB (by rwa [cleanB_withOneOf]) hch₂
      · exact collapseSingle_children hcd₂ hch₂
  · rw [if_neg hr]
    exact ⟨fun h => h, hcd⟩

end ProtoConvert

namespace ProtoConvert

theorem head?_mem {α : Type} {l : List α} {a : α} (h : l.head? = some a) : a ∈ l := by
  cases l with
  | nil => simp at h
  | cons x xs =>
    simp at h
    subst h
    exact List.mem_cons_self _ _

theorem childrenDeep_withOneOf_none {n : Node} (h : ChildrenDeep n) :
    ChildrenDeep (n.withOneOf none) :=
  ⟨fun c hc => h.1 c (childHooked_withOneOf_none c hc),
   fun c hc => h.2.1 c (by rwa [apChild_withOneOf] at hc),
   fun c hc => h.2.2 c (by rwa [pn_withOneOf] at hc)⟩

theorem tryCollapse_spec (sf : Nat) (comps : Doc) (schema simple complex : Node)
    (idx : Nat) (out : Node)
    (h : tryCollapseIfMatching sf comps schema simple complex idx = some out) :
    (∃ rem l, schema.oneOf = some l ∧ rem ∈ l.eraseIdx idx ∧
      out = assign (schema.withOneOf none) rem) ∨
    out = schema.withOneOf none ∨ out = schema := by
  unfold tryCollapseIfMatching at h
  split at h
  · exact absurd h (by simp)
  · split at h
    · exact absurd h (by simp)
    · split at h
      · next l hl =>
        simp only [] at h
        split at h
        · split at h
          · next rem hrem =>
            refine Or.inl ⟨rem, l, hl, head?_mem hrem, ?_⟩
            injection h with h'
            exact h'.symm
          · refine Or.inr (Or.inl ?_)
            injection h with h'
            exact h'.symm
        · exact absurd h (by simp)
      · next hl =>
        simp only [] at h
        split at h
        · refine Or.inr (Or.inr ?_)
          injection h with h'
          exact h'.symm
        · exact absurd h (by simp)

theorem collapseTitle_good (sf : Nat) (comps : Doc) {n : Node}
    (hcb : CleanB n = true) (hcd : ChildrenDeep n) :
    CleanB (collapseOneOfTitle sf comps n) = true ∧
    ChildrenDeep (collapseOneOfTitle sf comps n) := by
  have hout : ∀ (simple complex : Node) (idx : Nat) (out : Node),
      tryCollapseIfMatching sf comps n simple complex idx = some out →
      CleanB out = true ∧ ChildrenDeep out := by
    intro simple complex idx out h
    rcases tryCollapse_spec sf comps n simple complex idx out h with
      ⟨rem, l, hl, hrem, hout⟩ | hout | hout
    · have hrm : DeepClean rem :=
        hcd.1 rem (oneOf_member_childHooked hl rem
          ((List.eraseIdx_sublist l idx).subset hrem))
      subst hout
      exact ⟨cleanB_assign (by rwa [cleanB_withOneOf]) hrm.clean,
        childrenDeep_assign (childrenDeep_withOneOf_none hcd) hrm.children⟩
    · subst hout
      exact ⟨by rwa [cleanB_withOneOf], childrenDeep_withOneOf_none hcd⟩
    · subst hout
      exact ⟨hcb, hcd⟩
  unfold collapseOneOfTitle
  split
  · next a b heq =>
    cases h1 : tryCollapseIfMatching sf comps n a b 0 with
    | some n' => exact hout a b 0 n' h1
    | none =>
      cases h2 : tryCollapseIfMatching sf comps n b a 1 with
      | some n' => exact hout b a 1 n' h2
      | none => exact ⟨hcb, hcd⟩
  · exact ⟨hcb, hcd⟩

theorem phase1Suite_deep (f : Nat) (comps : Doc) (nm : String) (hk : HookKind)
    {n : Node} (hcd : ChildrenDeep n) (hhk : hk ≠ .nohook) :
    DeepClean (phase1Suite f comps nm hk n) := by
  cases hk with
  | nohook => exact absurd rfl hhk
  | propItem =>
    show DeepClean (collapseOrMergeOneOfArray f (handleAdditionalPropertiesUndefined n))
    have h1b := cleanB_handleAPUndef n
    have h1d := childrenDeep_handleAPUndef hcd
    have h2 := collapseOrMerge_good f h1d
    exact deepClean_intro (h2.1 h1b) h2.2
  | top =>
    show DeepClean (collapseOneOfTitle f comps
      (handleAdditionalPropertiesUndefined
        (collapseOrMergeOneOfArray f (handleOneOfConst nm n))))
    have h1 := childrenDeep_handleOneOfConst nm hcd
    have h2 := (collapseOrMerge_good f h1).2
    have h3b := cleanB_handleAPUndef (collapseOrMergeOneOfArray f (handleOneOfConst nm n))
    have h3d := childrenDeep_handleAPUndef h2
    have h4 := collapseTitle_good f comps h3b h3d
    exact deepClean_intro h4.1 h4.2
  | member =>
    show DeepClean (collapseOneOfTitle f comps
      (handleAdditionalPropertiesUndefined
        (collapseOrMergeOneOfArray f (handleOneOfConst nm n))))
    have h1 := childrenDeep_handleOneOfConst nm hcd
    have h2 := (collapseOrMerge_good f h1).2
    have h3b := cleanB_handleAPUndef (collapseOrMergeOneOfArray f (handleOneOfConst nm n))
    have h3d := childrenDeep_handleAPUndef h2
    have h4 := collapseTitle_good f comps h3b h3d
    exact deepClean_intro h4.1 h4.2

end ProtoConvert

namespace ProtoConvert

theorem sizeOf_node_pos (n : Node) : 0 < sizeOf n := by
  cases n with
  | mk d p a i o an al pn => simp_arith

theorem sizeOf_prop_lt {n : Node} {ps : List (String × Node)} (hp : n.properties = some ps)
    {kp : String × Node} (hm : kp ∈ ps) : sizeOf kp.2 < sizeOf n := by
  cases n with
  | mk d p a i o an al pn =>
    simp only [Node.properties] at hp
    subst hp
    have h1 : sizeOf kp < sizeOf ps := List.sizeOf_lt_of_mem hm
    have h2 : sizeOf kp.2 < sizeOf kp := by
      cases kp with
      | mk k v => simp_arith
    simp_arith
    omega

theorem sizeOf_items_lt {n : Node} {m : Node} (hi : n.items = some m) :
    sizeOf m < sizeOf n := by
  cases n with
  | mk d p a i o an al pn =>
    simp only [Node.items] at hi
    subst hi
    simp_arith

theorem sizeOf_ap_lt {n : Node} {m : Node}
    (ha : n.additionalProperties = some (.aschema m)) : sizeOf m < sizeOf n := by
  cases n with
  | mk d p a i o an al pn =>
    simp only [Node.additionalProperties] at ha
    subst ha
    simp_arith

theorem sizeOf_oneOf_lt {n : Node} {l : List Node} (ho : n.oneOf = some l)
    {m : Node} (hm : m ∈ l) : sizeOf m < sizeOf n := by
  cases n with
  | mk d p a i o an al pn =>
    simp only [Node.oneOf] at ho
    subst ho
    have h1 : sizeOf m < sizeOf l := List.sizeOf_lt_of_mem hm
    simp_arith
    omega

theorem sizeOf_anyOf_lt {n : Node} {l : List Node} (ho : n.anyOf = some l)
    {m : Node} (hm : m ∈ l) : sizeOf m < sizeOf n := by
  cases n with
  | mk d p a i o an al pn =>
    simp only [Node.anyOf] at ho
    subst ho
    have h1 : sizeOf m < sizeOf l := List.sizeOf_lt_of_mem hm
    simp_arith
    omega

theorem sizeOf_allOf_lt {n : Node} {l : List Node} (ho : n.allOf = some l)
    {m : Node} (hm : m ∈ l) : sizeOf m < sizeOf n := by
  cases n with
  | mk d p a i o an al pn =>
    simp only [Node.allOf] at ho
    subst ho
    have h1 : sizeOf m < sizeOf l := List.sizeOf_lt_of_mem hm
    simp_arith
    omega

theorem prop_member_childHooked {n : Node} {ps : List (String × Node)}
    (hp : n.properties = some ps) {kp : String × Node} (hm : kp ∈ ps) :
    kp.2 ∈ childHooked n := by
  cases n with
  | mk d p a i o an al pn =>
    simp only [Node.properties] at hp
    subst hp
    simp only [childHooked, Node.properties, Node.items, Node.oneOf, Node.anyOf,
      Node.allOf, List.mem_append, Option.getD_some, List.mem_map]
    exact Or.inl (Or.inl (Or.inl (Or.inl ⟨kp, hm, rfl⟩)))

theorem items_member_childHooked {n : Node} {m : Node} (hi : n.items = some m) :
    m ∈ childHooked n := by
  cases n with
  | mk d p a i o an al pn =>
    simp only [Node.items] at hi
    subst hi
    simp [childHooked, Node.properties, Node.items, Node.oneOf, Node.anyOf,
      Node.allOf, List.mem_append]

theorem anyOf_member_childHooked {n : Node} {l : List Node} (ho : n.anyOf = some l)
    {m : Node} (hm : m ∈ l) : m ∈ childHooked n := by
  cases n with
  | mk d p a i o an al pn =>
    simp only [Node.anyOf] at ho
    subst ho
    simp only [childHooked, Node.properties, Node.items, Node.oneOf, Node.anyOf,
      Node.allOf, List.mem_append, Option.getD_some]
    tauto

theorem allOf_member_childHooked {n : Node} {l : List Node} (ho : n.allOf = some l)
    {m : Node} (hm : m ∈ l) : m ∈ childHooked n := by
  cases n with
  | mk d p a i o an al pn =>
    simp only [Node.allOf] at ho
    subst ho
    simp only [childHooked, Node.properties, Node.items, Node.oneOf, Node.anyOf,
      Node.allOf, List.mem_append, Option.getD_some]
    tauto

theorem PreOk.bare {n : Node} (h : PreOk n) : n.ref.isSome → bareB n = true := by
  cases h; assumption

theorem PreOk.hooked {n : Node} (h : PreOk n) : ∀ c ∈ childHooked n, PreOk c := by
  cases h; assumption

theorem PreOk.ap {n : Node} (h : PreOk n) : ∀ c, apChild n = some c → DeepClean c := by
  cases h; assumption

theorem PreOk.pn {n : Node} (h : PreOk n) :
    ∀ c, n.propertyNames = some c → DeepClean c := by
  cases h; assumption

theorem phase1Walk_isEmpty (comps : Doc) (nm : String) (f : Nat) (m : Node) :
    isEmptyObjectSchema (phase1Walk comps nm f .nohook m) = isEmptyObjectSchema m := by
  cases f with
  | zero => rfl
  | succ f =>
    cases m with
    | mk d p a i o an al pn =>
      rw [phase1Walk.eq_2]
      by_cases hr : (Node.mk d p a i o an al pn).ref.isSome
      · rw [if_pos hr]
      · rw [if_neg hr]
        show isEmptyObjectSchema (Node.mk d _ _ _ _ _ _ pn) = _
        cases p <;> cases o <;> cases an <;> cases al <;>
          simp [isEmptyObjectSchema, Node.type, Node.data, Node.properties, Node.oneOf,
            Node.anyOf, Node.allOf, Node.ref]

end ProtoConvert

namespace ProtoConvert

theorem phase1Walk_deep (comps : Doc) (nm : String) :
    ∀ (f : Nat) (hk : HookKind) (n : Node),
      (DeepClean n → DeepClean (phase1Walk comps nm f hk n)) ∧
      (hk ≠ .nohook → PreOk n → sizeOf n ≤ f → DeepClean (phase1Walk comps nm f hk n)) := by
  intro f
  induction f with
  | zero =>
    intro hk n
    refine ⟨fun h => h, fun _ _ hsz => absurd hsz ?_⟩
    have := sizeOf_node_pos n
    omega
  | succ f ih =>
    intro hk n
    cases n with
    | mk d p a i o an al pn =>
      rw [phase1Walk.eq_2]
      by_cases hr : (Node.mk d p a i o an al pn).ref.isSome
      · rw [if_pos hr]
        exact ⟨fun h => h, fun _ hpre _ => bare_deepClean (hpre.bare hr)⟩
      · rw [if_neg hr]
        show (DeepClean (Node.mk d p a i o an al pn) →
            DeepClean (phase1Suite f comps nm hk (Node.mk d
              (Option.map (List.map fun kp => (kp.1, phase1Walk comps nm f .propItem kp.2)) p)
              (Option.map (fun v => match v with
                | APValue.abool b => APValue.abool b
                | APValue.aschema m => APValue.aschema (phase1Walk comps nm f .nohook m)) a)
              (Option.map (phase1Walk comps nm f .propItem) i)
              (Option.map (List.map (phase1Walk comps nm f .member)) o)
              (Option.map (List.map (phase1Walk comps nm f .member)) an)
              (Option.map (List.map (phase1Walk comps nm f .member)) al) pn))) ∧ _
        set n₁ : Node := Node.mk d
          (Option.map (List.map fun kp => (kp.1, phase1Walk comps nm f .propItem kp.2)) p)
          (Option.map (fun v => match v with
            | APValue.abool b => APValue.abool b
            | APValue.aschema m => APValue.aschema (phase1Walk comps nm f .nohook m)) a)
          (Option.map (phase1Walk comps nm f .propItem) i)
          (Option.map (List.map (phase1Walk comps nm f .member)) o)
          (Option.map (List.map (phase1Walk comps nm f .member)) an)
          (Option.map (List.map (phase1Walk comps nm f .member)) al) pn with hn1
        have build :
            (∀ kp ∈ p.getD [], DeepClean (phase1Walk comps nm f .propItem kp.2)) →
            (∀ m0, i = some m0 → DeepClean (phase1Walk comps nm f .propItem m0)) →
            (∀ m0, a = some (.aschema m0) → DeepClean (phase1Walk comps nm f .nohook m0)) →
            (∀ m0 ∈ o.getD [], DeepClean (phase1Walk comps nm f .member m0)) →
            (∀ m0 ∈ an.getD [], DeepClean (phase1Walk comps nm f .member m0)) →
            (∀ m0 ∈ al.getD [], DeepClean (phase1Walk comps nm f .member m0)) →
            (∀ m0, pn = some m0 → DeepClean m0) →
            ChildrenDeep n₁ := by
          intro h1 h2 h3 h4 h5 h6 h7
          refine ⟨fun c hc => ?_, fun c hc => ?_, fun c hc => ?_⟩
          · rw [hn1] at hc
            simp only [childHooked, Node.properties, Node.items, Node.oneOf, Node.anyOf,
              Node.allOf, List.mem_append] at hc
            rcases hc with ((((hc | hc) | hc) | hc) | hc)
            · cases p with
              | none => simp at hc
              | some ps =>
                simp only [Option.map_some, Option.getD_some, List.mem_map] at hc
                obtain ⟨kp, hkp, hceq⟩ := hc
                subst hceq
                obtain ⟨x, hx, hgx⟩ := List.mem_map.mp hkp
                rw [← hgx]
                exact h1 x (by simpa using hx)
            · cases i with
              | none => simp at hc
              | some it =>
                simp at hc
                subst hc
                exact h2 it rfl
            · cases o with
              | none => simp at hc
              | some ms =>
                simp at hc
                obtain ⟨m0, hm0, hceq⟩ := hc
                subst hceq
                exact h4 m0 (by simpa using hm0)
            · cases an with
              | none => simp at hc
              | some ms =>
                simp at hc
                obtain ⟨m0, hm0, hceq⟩ := hc
                subst hceq
                exact h5 m0 (by simpa using hm0)
            · cases al with
              | none => simp at hc
              | some ms =>
                simp at hc
                obtain ⟨m0, hm0, hceq⟩ := hc
                subst hceq
                exact h6 m0 (by simpa using hm0)
          · rw [hn1] at hc
            simp only [apChild, Node.additionalProperties] at hc
            cases a with
            | none => simp at hc
            | some v =>
              cases v with
              | abool b => simp at hc
              | aschema m0 =>
                simp at hc
                subst hc
                exact h3 m0 rfl
          · rw [hn1] at hc
            simp only [Node.propertyNames] at hc
            exact h7 c hc
        have hclean1 : CleanB (Node.mk d p a i o an al pn) = true → CleanB n₁ = true := by
          intro hcb
          rw [hn1]
          cases a with
          | none => exact hcb
          | some v =>
            cases v with
            | abool b => exact hcb
            | aschema m0 =>
              have hcb' : (!isEmptyObjectSchema m0) = true := hcb
              show (!isEmptyObjectSchema (phase1Walk comps nm f HookKind.nohook m0)) = true
              rw [phase1Walk_isEmpty]
              exact hcb'
        constructor
        · intro h
          have hch := h.children
          have hcd₁ : ChildrenDeep n₁ := by
            refine build ?_ ?_ ?_ ?_ ?_ ?_ ?_
            · intro kp hkp
              cases p with
              | none => simp at hkp
              | some ps =>
                refine (ih .propItem kp.2).1 (hch.1 kp.2 ?_)
                exact prop_member_childHooked
                  (show (Node.mk d (some ps) a i o an al pn).properties = some ps by
                    simp [Node.properties]) (by simpa using hkp)
            · intro m0 hm0
              subst hm0
              exact (ih .propItem m0).1 (hch.1 m0 (items_member_childHooked (by simp [Node.items])))
            · intro m0 hm0
              subst hm0
              exact (ih .nohook m0).1 (hch.2.1 m0 (by simp [apChild, Node.additionalProperties]))
            · intro m0 hm0
              cases o with
              | none => simp at hm0
              | some ms =>
                exact (ih .member m0).1 (hch.1 m0 (oneOf_member_childHooked
                  (show (Node.mk d p a i (some ms) an al pn).oneOf = some ms by
                    simp [Node.oneOf]) m0 (by simpa using hm0)))
            · intro m0 hm0
              cases an with
              | none => simp at hm0
              | some ms =>
                exact (ih .member m0).1 (hch.1 m0 (anyOf_member_childHooked
                  (show (Node.mk d p a i o (some ms) al pn).anyOf = some ms by
                    simp [Node.anyOf]) (by simpa using hm0 : m0 ∈ ms)))
            · intro m0 hm0
              cases al with
              | none => simp at hm0
              | some ms =>
                exact (ih .member m0).1 (hch.1 m0 (allOf_member_childHooked
                  (show (Node.mk d p a i o an (some ms) pn).allOf = some ms by
                    simp [Node.allOf]) (by simpa using hm0 : m0 ∈ ms)))
            · intro m0 hm0
              exact hch.2.2 m0 (by simpa [Node.propertyNames] using hm0)
          cases hk with
          | nohook => exact deepClean_intro (hclean1 h.clean) hcd₁
          | top => exact phase1Suite_deep f comps nm .top hcd₁ (by simp)
          | member => exact phase1Suite_deep f comps nm .member hcd₁ (by simp)
          | propItem => exact phase1Suite_deep f comps nm .propItem hcd₁ (by simp)
        · intro hhk hpre hsz
          have hcd₁ : ChildrenDeep n₁ := by
            refine build ?_ ?_ ?_ ?_ ?_ ?_ ?_
            · intro kp hkp
              cases p with
              | none => simp at hkp
              | some ps =>
                have hmem := prop_member_childHooked
                  (show (Node.mk d (some ps) a i o an al pn).properties = some ps by
                    simp [Node.properties]) (by simpa using hkp)
                have hsz' : sizeOf kp.2 ≤ f := by
                  have := sizeOf_prop_lt
                    (show (Node.mk d (some ps) a i o an al pn).properties = some ps by
                      simp [Node.properties]) (show kp ∈ ps by simpa using hkp)
                  omega
                exact (ih .propItem kp.2).2 (by simp) (hpre.hooked kp.2 hmem) hsz'
            · intro m0 hm0
              subst hm0
              have hmem := items_member_childHooked
                (show (Node.mk d p a (some m0) o an al pn).items = some m0 by
                  simp [Node.items])
              have hsz' : sizeOf m0 ≤ f := by
                have := sizeOf_items_lt
                  (show (Node.mk d p a (some m0) o an al pn).items = some m0 by
                    simp [Node.items])
                omega
              exact (ih .propItem m0).2 (by simp) (hpre.hooked m0 hmem) hsz'
            · intro m0 hm0
              subst hm0
              exact (ih .nohook m0).1 (hpre.ap m0 (by simp [apChild, Node.additionalProperties]))
            · intro m0 hm0
              cases o with
              | none => simp at hm0
              | some ms =>
                have hmem := oneOf_member_childHooked
                  (show (Node.mk d p a i (some ms) an al pn).oneOf = some ms by
                    simp [Node.oneOf]) m0 (by simpa using hm0)
                have hsz' : sizeOf m0 ≤ f := by
                  have := sizeOf_oneOf_lt
                    (show (Node.mk d p a i (some ms) an al pn).oneOf = some ms by
                      simp [Node.oneOf]) (by simpa using hm0 : m0 ∈ ms)
                  omega
                exact (ih .member m0).2 (by simp) (hpre.hooked m0 hmem) hsz'
            · intro m0 hm0
              cases an with
              | none => simp at hm0
              | some ms =>
                have hmem := anyOf_member_childHooked
                  (show (Node.mk d p a i o (some ms) al pn).anyOf = some ms by
                    simp [Node.anyOf]) (by simpa using hm0 : m0 ∈ ms)
                have hsz' : sizeOf m0 ≤ f := by
                  have := sizeOf_anyOf_lt
                    (show (Node.mk d p a i o (some ms) al pn).anyOf = some ms by
                      simp [Node.anyOf]) (by simpa using hm0 : m0 ∈ ms)
                  omega
                exact (ih .member m0).2 (by simp) (hpre.hooked m0 hmem) hsz'
            · intro m0 hm0
              cases al with
              | none => simp at hm0
              | some ms =>
                have hmem := allOf_member_childHooked
                  (show (Node.mk d p a i o an (some ms) pn).allOf = some ms by
                    simp [Node.allOf]) (by simpa using hm0 : m0 ∈ ms)
                have hsz' : sizeOf m0 ≤ f := by
                  have := sizeOf_allOf_lt
                    (show (Node.mk d p a i o an (some ms) pn).allOf = some ms by
                      simp [Node.allOf]) (by simpa using hm0 : m0 ∈ ms)
                  omega
                exact (ih .member m0).2 (by simp) (hpre.hooked m0 hmem) hsz'
            · intro m0 hm0
              exact hpre.pn m0 (by simpa [Node.propertyNames] using hm0)
          cases hk with
          | nohook => exact absurd rfl hhk
          | top => exact phase1Suite_deep f comps nm .top hcd₁ (by simp)
          | member => exact phase1Suite_deep f comps nm .member hcd₁ (by simp)
          | propItem => exact phase1Suite_deep f comps nm .propItem hcd₁ (by simp)

end ProtoConvert

namespace ProtoConvert

/-- Phase one over a name list: once every remaining entry is either
still to be processed under the fuel bound or already deeply clean, the
fold leaves every component deeply clean. -/
theorem phase1Fold (fuel : Nat) (names : List String) :
    ∀ (acc : Doc),
      (∀ kv ∈ acc, (PreOk kv.2 ∧ sizeOf kv.2 ≤ fuel) ∨ DeepClean kv.2) →
      (∀ kv ∈ acc, kv.1 ∈ names ∨ DeepClean kv.2) →
      DocDeep (names.foldl (fun acc nm =>
        match acc.lookup nm with
        | none => acc
        | some v => setAssoc acc nm (phase1Walk acc nm fuel .top v)) acc) := by
  induction names with
  | nil =>
    intro acc h1 h2 kv hkv
    rcases h2 kv hkv with h | h
    · exact absurd h (by simp)
    · exact h
  | cons nm names ihn =>
    intro acc h1 h2
    rw [List.foldl_cons]
    cases hl : acc.lookup nm with
    | none =>
      simp only [hl]
      refine ihn acc h1 ?_
      intro kv hkv
      rcases h2 kv hkv with h | h
      · rcases List.mem_cons.mp h with h' | h'
        · have hne := lookup_none_keys hl kv hkv
          rw [h'] at hne
          exact absurd hne (by simp)
        · exact Or.inl h'
      · exact Or.inr h
    | some v =>
      simp only [hl]
      have hv : DeepClean (phase1Walk acc nm fuel .top v) := by
        rcases h1 (nm, v) (lookup_mem hl) with ⟨hp, hs⟩ | hd
        · exact (phase1Walk_deep acc nm fuel .top v).2 (by simp) hp hs
        · exact (phase1Walk_deep acc nm fuel .top v).1 hd
      refine ihn _ ?_ ?_
      · intro kv hkv
        rcases setAssoc_mem kv hkv with h | ⟨h, _⟩
        · rw [h]
          exact Or.inr hv
        · exact h1 kv h
      · intro kv hkv
        rcases setAssoc_mem kv hkv with h | ⟨h, hne⟩
        · rw [h]
          exact Or.inr hv
        · rcases h2 kv h with h' | h'
          · rcases List.mem_cons.mp h' with h'' | h''
            · rw [h''] at hne
              exact absurd hne (by simp)
            · exact Or.inl h''
          · exact Or.inr h'

/-- Phase one leaves every component deeply clean once the document
satisfies the precondition and the fuel covers every component. -/
theorem phase1Doc_deep (fuel : Nat) (d : Doc) (hpre : PreOkDoc d)
    (hsz : ∀ kv ∈ d, sizeOf kv.2 ≤ fuel) : DocDeep (phase1Doc fuel d) := by
  unfold phase1Doc
  refine phase1Fold fuel (d.map (·.1)) d ?_ ?_
  · intro kv hkv
    exact Or.inl ⟨hpre kv hkv, hsz kv hkv⟩
  · intro kv hkv
    exact Or.inl (List.mem_map.mpr ⟨kv, hkv, rfl⟩)

end ProtoConvert

namespace ProtoConvert

/-- Threading a document through a list rewrite preserves document
cleanliness and any per-element invariant the step preserves. -/
theorem mapState_deep {α : Type} (g : Doc → α → Doc × α) (P : α → Prop)
    (hg : ∀ (c : Doc) (x : α), DocDeep c → P x → DocDeep (g c x).1 ∧ P (g c x).2)
    (xs : List α) :
    ∀ (c : Doc), DocDeep c → (∀ x ∈ xs, P x) →
      DocDeep (mapState g c xs).1 ∧ ∀ y ∈ (mapState g c xs).2, P y := by
  induction xs with
  | nil =>
    intro c hc _
    exact ⟨hc, by simp [mapState]⟩
  | cons x xs ih =>
    intro c hc hxs
    obtain ⟨h1, h2⟩ := hg c x hc (hxs x (by simp))
    cases hgx : g c x with
    | mk c₁ x' =>
      rw [hgx] at h1 h2
      obtain ⟨h3, h4⟩ := ih c₁ h1 (fun y hy => hxs y (by simp [hy]))
      cases hms : mapState g c₁ xs with
      | mk c₂ xs' =>
        rw [hms] at h3 h4
        have he : mapState g c (x :: xs) = (c₂, x' :: xs') := by
          rw [mapState.eq_2]
          simp only [hgx, hms]
        rw [he]
        refine ⟨h3, ?_⟩
        intro y hy
        rcases List.mem_cons.mp hy with h | h
        · exact h ▸ h2
        · exact h4 y h

/-- optNodeState preserves document cleanliness and deep cleanliness of
the carried node. -/
theorem optNodeState_deep (g : Doc → Node → Doc × Node)
    (hg : ∀ (c : Doc) (m : Node), DocDeep c → DeepClean m →
      DocDeep (g c m).1 ∧ DeepClean (g c m).2)
    (io : Option Node) (c : Doc) (hc : DocDeep c)
    (hi : ∀ m, io = some m → DeepClean m) :
    DocDeep (optNodeState g c io).1 ∧
    (∀ m, (optNodeState g c io).2 = some m → DeepClean m) := by
  cases io with
  | none =>
    refine ⟨hc, ?_⟩
    intro m h
    exact absurd h (by simp [optNodeState])
  | some it =>
    obtain ⟨h1, h2⟩ := hg c it hc (hi it rfl)
    refine ⟨h1, ?_⟩
    intro m h
    have hm : (g c it).2 = m := by
      simpa [optNodeState] using h
    exact hm ▸ h2

/-- optListState preserves document cleanliness and any per-element
invariant the step preserves. -/
theorem optListState_deep {α : Type} (g : Doc → α → Doc × α) (P : α → Prop)
    (hg : ∀ (c : Doc) (x : α), DocDeep c → P x → DocDeep (g c x).1 ∧ P (g c x).2)
    (lo : Option (List α)) (c : Doc) (hc : DocDeep c)
    (hl : ∀ x ∈ lo.getD [], P x) :
    DocDeep (optListState g c lo).1 ∧
    (∀ x ∈ (optListState g c lo).2.getD [], P x) := by
  cases lo with
  | none =>
    exact ⟨hc, by simp [optListState]⟩
  | some xs =>
    obtain ⟨h1, h2⟩ := mapState_deep g P hg xs c hc (by simpa using hl)
    refine ⟨h1, ?_⟩
    intro x hx
    exact h2 x (by simpa [optListState] using hx)

@[simp] theorem optListState_isNone {α : Type} (g : Doc → α → Doc × α) (c : Doc)
    (lo : Option (List α)) : (optListState g c lo).2.isNone = lo.isNone := by
  cases lo <;> rfl

@[simp] theorem optNodeState_isNone (g : Doc → Node → Doc × Node) (c : Doc)
    (io : Option Node) : (optNodeState g c io).2.isNone = io.isNone := by
  cases io <;> rfl

/-- Phase two never changes the surface read by isEmptyObjectSchema at a
location it does not hook. -/
theorem phase2Walk_isEmpty (f : Nat) (c : Doc) (m : Node) :
    isEmptyObjectSchema (phase2Walk f c .nohook m).2 = isEmptyObjectSchema m := by
  cases f with
  | zero => rfl
  | succ f =>
    cases m with
    | mk d p a i o an al pn =>
      rw [phase2Walk.eq_2]
      by_cases hr : (Node.mk d p a i o an al pn).ref.isSome
      · rw [if_pos hr]
      · rw [if_neg hr]
        simp only [isEmptyObjectSchema, Node.type, Node.data, Node.properties, Node.allOf,
          Node.anyOf, Node.oneOf, Node.ref, optListState_isNone, optNodeState_isNone]

end ProtoConvert

namespace ProtoConvert

/-- The fresh field wrapper pushed by the single-map rewrite is deeply
clean. -/
theorem deepClean_clone : DeepClean cloneAdditionalPropertySchema := by
  refine deepClean_intro (by rfl) ⟨?_, ?_, ?_⟩
  · intro c hc
    have hc' : c = typeNode "string" := by
      simpa [cloneAdditionalPropertySchema, childHooked, typeNode, dataNode,
        Node.withProps, Node.properties, Node.items, Node.oneOf, Node.anyOf,
        Node.allOf] using hc
    rw [hc']
    exact deepClean_dataNode _
  · intro c hc
    exact absurd hc (by simp [cloneAdditionalPropertySchema, apChild, typeNode, dataNode,
      Node.withProps, Node.additionalProperties])
  · intro c hc
    exact absurd hc (by simp [cloneAdditionalPropertySchema, typeNode, dataNode,
      Node.withProps, Node.propertyNames])

/-- The integer wrapper built by the single-map rewrite is deeply clean
whenever the wrapped resolution is. -/
theorem deepClean_intWrap {c : Node} (hc : DeepClean c) :
    DeepClean ((typeNode "object").withProps
      (some [("field", typeNode "string"), ("value", c)])) := by
  refine deepClean_intro (by rfl) ⟨?_, ?_, ?_⟩
  · intro x hx
    have hx' : x = typeNode "string" ∨ x = c := by
      simpa [childHooked, typeNode, dataNode, Node.withProps, Node.properties, Node.items,
        Node.oneOf, Node.anyOf, Node.allOf] using hx
    rcases hx' with h | h
    · rw [h]
      exact deepClean_dataNode _
    · rw [h]
      exact hc
  · intro x hx
    exact absurd hx (by simp [apChild, typeNode, dataNode, Node.withProps,
      Node.additionalProperties])
  · intro x hx
    exact absurd hx (by simp [typeNode, dataNode, Node.withProps, Node.propertyNames])

/-- transformPropertyNamesSchema preserves deep cleanliness of both the
registry and the node: every branch merges only deeply clean material
and ends by clearing the four constraint keys. -/
theorem tpn_deep {comps : Doc} {n : Node} (hc : DocDeep comps) (hn : DeepClean n) :
    DocDeep (transformPropertyNamesSchema comps n).1 ∧
    DeepClean (transformPropertyNamesSchema comps n).2 := by
  cases ha : n.additionalProperties with
  | none =>
    have he : transformPropertyNamesSchema comps n = (comps, n) := by
      unfold transformPropertyNamesSchema
      simp only [ha]
    rw [he]
    exact ⟨hc, hn⟩
  | some v =>
    cases v with
    | abool b =>
      have he : transformPropertyNamesSchema comps n = (comps, n) := by
        unfold transformPropertyNamesSchema
        simp only [ha]
      rw [he]
      exact ⟨hc, hn⟩
    | aschema apv =>
      have hap : DeepClean apv := hn.children.2.1 apv (by simp [apChild, ha])
      by_cases hg : (n.type == some "object" && n.minProperties == some 1 &&
          n.maxProperties == some 1) = true
      case neg =>
        have he : transformPropertyNamesSchema comps n = (comps, n) := by
          unfold transformPropertyNamesSchema
          simp only [ha]
          rw [if_neg hg]
        rw [he]
        exact ⟨hc, hn⟩
      case pos =>
        have hg' := hg
        simp only [Bool.and_eq_true, beq_iff_eq] at hg'
        rw [tpn_guard_true comps n apv hg'.1.1 ha hg'.1.2 hg'.2]
        cases hres : resolveObj comps apv with
        | none =>
          simp only [hres]
          exact ⟨hc, clearFour_deep hn.children.1⟩
        | some cr =>
          have hcr : DeepClean cr := by
            unfold resolveObj at hres
            cases hrr : apv.ref with
            | none =>
              rw [hrr] at hres
              injection hres with h
              exact h ▸ hap
            | some r =>
              rw [hrr] at hres
              exact hc (refName r, cr) (lookup_mem hres)
          simp only [hres]
          by_cases hall : cr.allOf.isSome
          · rw [if_pos hall]
            cases hrr : apv.ref with
            | some r =>
              simp only [hrr]
              exact ⟨docDeep_setAssoc hc (deepClean_pushAllOf hcr deepClean_clone),
                clearFour_deep (deepClean_assign hn hap).children.1⟩
            | none =>
              simp only [hrr]
              exact ⟨hc,
                clearFour_deep (deepClean_assign hn
                  (deepClean_pushAllOf hap deepClean_clone)).children.1⟩
          · rw [if_neg hall]
            by_cases hobj : (cr.type == some "object" && cr.properties.isSome) = true
            · rw [if_pos hobj]
              exact ⟨hc, clearFour_deep (deepClean_assign hn hap).children.1⟩
            · rw [if_neg hobj]
              by_cases hint : (cr.type == some "integer") = true
              · rw [if_pos hint]
                exact ⟨hc, clearFour_deep (deepClean_assign hn
                  (deepClean_intWrap hcr)).children.1⟩
              · rw [if_neg hint]
                exact ⟨hc, clearFour_deep hn.children.1⟩

end ProtoConvert

namespace ProtoConvert

/-- Phase two preserves deep cleanliness of the registry and of the
node, at any fuel: the children are rewritten recursively, the surface
read by the local cleanliness check is untouched at unhooked locations,
and the hook transformPropertyNamesSchema preserves both by tpn_deep. -/
theorem phase2Walk_deep :
    ∀ (f : Nat) (comps : Doc) (hk : HookKind) (n : Node),
      DocDeep comps → DeepClean n →
      DocDeep (phase2Walk f comps hk n).1 ∧ DeepClean (phase2Walk f comps hk n).2 := by
  intro f
  induction f with
  | zero =>
    intro comps hk n hc hn
    exact ⟨hc, hn⟩
  | succ f ih =>
    intro comps hk n hc hn
    cases n with
    | mk d p a i o an al pn =>
      rw [phase2Walk.eq_2]
      by_cases hr : (Node.mk d p a i o an al pn).ref.isSome
      · rw [if_pos hr]
        exact ⟨hc, hn⟩
      · rw [if_neg hr]
        have hp : ∀ kp ∈ p.getD [], DeepClean kp.2 := by
          intro kp hkp
          refine hn.children.1 kp.2 ?_
          cases p with
          | none => simp at hkp
          | some ps =>
            exact prop_member_childHooked
              (show (Node.mk d (some ps) a i o an al pn).properties = some ps from rfl)
              (by simpa using hkp)
        have hi : ∀ m', i = some m' → DeepClean m' := by
          intro m' hm'
          exact hn.children.1 m' (items_member_childHooked
            (show (Node.mk d p a i o an al pn).items = some m' from hm'))
        have ho : ∀ m' ∈ o.getD [], DeepClean m' := by
          intro m' hm'
          refine hn.children.1 m' ?_
          cases o with
          | none => simp at hm'
          | some ms =>
            exact oneOf_member_childHooked
              (show (Node.mk d p a i (some ms) an al pn).oneOf = some ms from rfl)
              m' (by simpa using hm')
        have han : ∀ m' ∈ an.getD [], DeepClean m' := by
          intro m' hm'
          refine hn.children.1 m' ?_
          cases an with
          | none => simp at hm'
          | some ms =>
            exact anyOf_member_childHooked
              (show (Node.mk d p a i o (some ms) al pn).anyOf = some ms from rfl)
              (by simpa using hm' : m' ∈ ms)
        have hal : ∀ m' ∈ al.getD [], DeepClean m' := by
          intro m' hm'
          refine hn.children.1 m' ?_
          cases al with
          | none => simp at hm'
          | some ms =>
            exact allOf_member_childHooked
              (show (Node.mk d p a i o an (some ms) pn).allOf = some ms from rfl)
              (by simpa using hm' : m' ∈ ms)
        have hpn : ∀ m', pn = some m' → DeepClean m' := by
          intro m' hm'
          exact hn.children.2.2 m'
            (show (Node.mk d p a i o an al pn).propertyNames = some m' from hm')
        cases a with
        | none =>
          set rp := optListState (fun (c : Doc) (kp : String × Node) =>
            let r' := phase2Walk f c .propItem kp.2
            (r'.1, (kp.1, r'.2))) comps p with hrpd
          have h1 : DocDeep rp.1 ∧ ∀ kp ∈ rp.2.getD [], DeepClean kp.2 :=
            optListState_deep _ (fun kv : String × Node => DeepClean kv.2)
              (fun c' kp hc' hkp =>
                ⟨(ih c' .propItem kp.2 hc' hkp).1, (ih c' .propItem kp.2 hc' hkp).2⟩)
              p comps hc hp
          set ri := optNodeState (fun c m => phase2Walk f c .propItem m) rp.1 i with hrid
          have h2 : DocDeep ri.1 ∧ ∀ m', ri.2 = some m' → DeepClean m' :=
            optNodeState_deep _ (fun c' m' hc' hm' => ih c' .propItem m' hc' hm')
              i rp.1 h1.1 hi
          set ral := optListState (fun c m => phase2Walk f c .member m) ri.1 al with hrald
          have h4 : DocDeep ral.1 ∧ ∀ x ∈ ral.2.getD [], DeepClean x :=
            optListState_deep _ DeepClean
              (fun c' m' hc' hm' => ih c' .member m' hc' hm') al ri.1 h2.1 hal
          set ran := optListState (fun c m => phase2Walk f c .member m) ral.1 an with hrand
          have h5 : DocDeep ran.1 ∧ ∀ x ∈ ran.2.getD [], DeepClean x :=
            optListState_deep _ DeepClean
              (fun c' m' hc' hm' => ih c' .member m' hc' hm') an ral.1 h4.1 han
          set ro := optListState (fun c m => phase2Walk f c .member m) ran.1 o with hrod
          have h6 : DocDeep ro.1 ∧ ∀ x ∈ ro.2.getD [], DeepClean x :=
            optListState_deep _ DeepClean
              (fun c' m' hc' hm' => ih c' .member m' hc' hm') o ran.1 h5.1 ho
          have hn1 : DeepClean (Node.mk d rp.2 none ri.2 ro.2 ran.2 ral.2 pn) := by
            refine deepClean_intro (by rfl) ⟨?_, ?_, ?_⟩
            · intro c' hc'
              simp only [childHooked, Node.properties, Node.items, Node.oneOf, Node.anyOf,
                Node.allOf, List.mem_append] at hc'
              rcases hc' with ((((h | h) | h) | h) | h)
              · obtain ⟨kp, hkp, he⟩ := List.mem_map.mp h
                exact he ▸ h1.2 kp hkp
              · refine h2.2 c' ?_
                cases hri2 : ri.2 with
                | none => rw [hri2] at h; exact absurd h (by simp)
                | some x =>
                  rw [hri2] at h
                  simp at h
                  subst h
                  rfl
              · exact h6.2 c' h
              · exact h5.2 c' h
              · exact h4.2 c' h
            · intro c' hc'
              exact absurd hc' (by simp [apChild, Node.additionalProperties])
            · intro c' hc'
              exact hpn c' hc'
          cases hk with
          | nohook => exact ⟨h6.1, hn1⟩
          | top => exact tpn_deep h6.1 hn1
          | member => exact tpn_deep h6.1 hn1
          | propItem => exact tpn_deep h6.1 hn1
        | some v =>
          cases v with
          | abool b =>
            set rp := optListState (fun (c : Doc) (kp : String × Node) =>
              let r' := phase2Walk f c .propItem kp.2
              (r'.1, (kp.1, r'.2))) comps p with hrpd
            have h1 : DocDeep rp.1 ∧ ∀ kp ∈ rp.2.getD [], DeepClean kp.2 :=
              optListState_deep _ (fun kv : String × Node => DeepClean kv.2)
                (fun c' kp hc' hkp =>
                  ⟨(ih c' .propItem kp.2 hc' hkp).1, (ih c' .propItem kp.2 hc' hkp).2⟩)
                p comps hc hp
            set ri := optNodeState (fun c m => phase2Walk f c .propItem m) rp.1 i with hrid
            have h2 : DocDeep ri.1 ∧ ∀ m', ri.2 = some m' → DeepClean m' :=
              optNodeState_deep _ (fun c' m' hc' hm' => ih c' .propItem m' hc' hm')
                i rp.1 h1.1 hi
            set ral := optListState (fun c m => phase2Walk f c .member m) ri.1 al with hrald
            have h4 : DocDeep ral.1 ∧ ∀ x ∈ ral.2.getD [], DeepClean x :=
              optListState_deep _ DeepClean
                (fun c' m' hc' hm' => ih c' .member m' hc' hm') al ri.1 h2.1 hal
            set ran := optListState (fun c m => phase2Walk f c .member m) ral.1 an with hrand
            have h5 : DocDeep ran.1 ∧ ∀ x ∈ ran.2.getD [], DeepClean x :=
              optListState_deep _ DeepClean
                (fun c' m' hc' hm' => ih c' .member m' hc' hm') an ral.1 h4.1 han
            set ro := optListState (fun c m => phase2Walk f c .member m) ran.1 o with hrod
            have h6 : DocDeep ro.1 ∧ ∀ x ∈ ro.2.getD [], DeepClean x :=
              optListState_deep _ DeepClean
                (fun c' m' hc' hm' => ih c' .member m' hc' hm') o ran.1 h5.1 ho
            have hn1 : DeepClean
                (Node.mk d rp.2 (some (.abool b)) ri.2 ro.2 ran.2 ral.2 pn) := by
              refine deepClean_intro hn.clean ⟨?_, ?_, ?_⟩
              · intro c' hc'
                simp only [childHooked, Node.properties, Node.items, Node.oneOf, Node.anyOf,
                  Node.allOf, List.mem_append] at hc'
                rcases hc' with ((((h | h) | h) | h) | h)
                · obtain ⟨kp, hkp, he⟩ := List.mem_map.mp h
                  exact he ▸ h1.2 kp hkp
                · refine h2.2 c' ?_
                  cases hri2 : ri.2 with
                  | none => rw [hri2] at h; exact absurd h (by simp)
                  | some x =>
                    rw [hri2] at h
                    simp at h
                    subst h
                    rfl
                · exact h6.2 c' h
                · exact h5.2 c' h
                · exact h4.2 c' h
              · intro c' hc'
                exact absurd hc' (by simp [apChild, Node.additionalProperties])
              · intro c' hc'
                exact hpn c' hc'
            cases hk with
            | nohook => exact ⟨h6.1, hn1⟩
            | top => exact tpn_deep h6.1 hn1
            | member => exact tpn_deep h6.1 hn1
            | propItem => exact tpn_deep h6.1 hn1
          | aschema m =>
            have hm : DeepClean m := hn.children.2.1 m
              (show apChild (Node.mk d p (some (.aschema m)) i o an al pn) = some m from rfl)
            set rp := optListState (fun (c : Doc) (kp : String × Node) =>
              let r' := phase2Walk f c .propItem kp.2
              (r'.1, (kp.1, r'.2))) comps p with hrpd
            have h1 : DocDeep rp.1 ∧ ∀ kp ∈ rp.2.getD [], DeepClean kp.2 :=
              optListState_deep _ (fun kv : String × Node => DeepClean kv.2)
                (fun c' kp hc' hkp =>
                  ⟨(ih c' .propItem kp.2 hc' hkp).1, (ih c' .propItem kp.2 hc' hkp).2⟩)
                p comps hc hp
            set ri := optNodeState (fun c m => phase2Walk f c .propItem m) rp.1 i with hrid
            have h2 : DocDeep ri.1 ∧ ∀ m', ri.2 = some m' → DeepClean m' :=
              optNodeState_deep _ (fun c' m' hc' hm' => ih c' .propItem m' hc' hm')
                i rp.1 h1.1 hi
            set ra := phase2Walk f ri.1 .nohook m with hrad
            have h3 : DocDeep ra.1 ∧ DeepClean ra.2 := ih ri.1 .nohook m h2.1 hm
            set ral := optListState (fun c m => phase2Walk f c .member m) ra.1 al with hrald
            have h4 : DocDeep ral.1 ∧ ∀ x ∈ ral.2.getD [], DeepClean x :=
              optListState_deep _ DeepClean
                (fun c' m' hc' hm' => ih c' .member m' hc' hm') al ra.1 h3.1 hal
            set ran := optListState (fun c m => phase2Walk f c .member m) ral.1 an with hrand
            have h5 : DocDeep ran.1 ∧ ∀ x ∈ ran.2.getD [], DeepClean x :=
              optListState_deep _ DeepClean
                (fun c' m' hc' hm' => ih c' .member m' hc' hm') an ral.1 h4.1 han
            set ro := optListState (fun c m => phase2Walk f c .member m) ran.1 o with hrod
            have h6 : DocDeep ro.1 ∧ ∀ x ∈ ro.2.getD [], DeepClean x :=
              optListState_deep _ DeepClean
                (fun c' m' hc' hm' => ih c' .member m' hc' hm') o ran.1 h5.1 ho
            have hn1 : DeepClean
                (Node.mk d rp.2 (some (.aschema ra.2)) ri.2 ro.2 ran.2 ral.2 pn) := by
              refine deepClean_intro ?_ ⟨?_, ?_, ?_⟩
              · have hcb' : (!isEmptyObjectSchema m) = true := hn.clean
                show (!isEmptyObjectSchema ra.2) = true
                rw [hrad, phase2Walk_isEmpty]
                exact hcb'
              · intro c' hc'
                simp only [childHooked, Node.properties, Node.items, Node.oneOf, Node.anyOf,
                  Node.allOf, List.mem_append] at hc'
                rcases hc' with ((((h | h) | h) | h) | h)
                · obtain ⟨kp, hkp, he⟩ := List.mem_map.mp h
                  exact he ▸ h1.2 kp hkp
                · refine h2.2 c' ?_
                  cases hri2 : ri.2 with
                  | none => rw [hri2] at h; exact absurd h (by simp)
                  | some x =>
                    rw [hri2] at h
                    simp at h
                    subst h
                    rfl
                · exact h6.2 c' h
                · exact h5.2 c' h
                · exact h4.2 c' h
              · intro c' hc'
                have he : ra.2 = c' := by
                  simpa [apChild, Node.additionalProperties] using hc'
                exact he ▸ h3.2
              · intro c' hc'
                exact hpn c' hc'
            cases hk with
            | nohook => exact ⟨h6.1, hn1⟩
            | top => exact tpn_deep h6.1 hn1
            | member => exact tpn_deep h6.1 hn1
            | propItem => exact tpn_deep h6.1 hn1

end ProtoConvert

namespace ProtoConvert

/-- Phase two over a name list preserves deep cleanliness of the whole
document, the registry included. -/
theorem phase2Fold (fuel : Nat) (names : List String) :
    ∀ (acc : Doc), DocDeep acc →
      DocDeep (names.foldl (fun acc nm =>
        match acc.lookup nm with
        | none => acc
        | some v =>
          let (c, v') := phase2Walk fuel acc .top v
          setAssoc c nm v') acc) := by
  induction names with
  | nil =>
    intro acc h
    exact h
  | cons nm names ihn =>
    intro acc h
    rw [List.foldl_cons]
    cases hl : acc.lookup nm with
    | none =>
      simp only [hl]
      exact ihn acc h
    | some v =>
      simp only [hl]
      have hv := phase2Walk_deep fuel acc .top v h (h (nm, v) (lookup_mem hl))
      exact ihn _ (docDeep_setAssoc hv.1 hv.2)

/-- Phase two leaves a deeply clean document deeply clean. -/
theorem phase2Doc_deep (fuel : Nat) (d : Doc) (h : DocDeep d) :
    DocDeep (phase2Doc fuel d) := by
  unfold phase2Doc
  exact phase2Fold fuel (d.map (·.1)) d h

/-- handleMinMaxProperties preserves deep cleanliness: it only tags data
fields on the node and its property values. -/
theorem deepClean_handleMinMax {n : Node} (h : DeepClean n) :
    DeepClean (handleMinMaxProperties n) := by
  cases n with
  | mk d p a i o an al pn =>
    unfold handleMinMaxProperties
    split
    · refine deepClean_intro h.clean ⟨?_, ?_, ?_⟩
      · intro c hc
        simp only [childHooked, Node.withData, Node.withProps, Node.properties, Node.items,
          Node.oneOf, Node.anyOf, Node.allOf, List.mem_append] at hc
        rcases hc with ((((hc | hc) | hc) | hc) | hc)
        · cases p with
          | none => simp at hc
          | some ps =>
            simp only [Node.properties, Option.getD_some, List.mem_map] at hc
            obtain ⟨kp, hkp, he⟩ := hc
            obtain ⟨kq, hkq, he'⟩ := hkp
            rw [← he, ← he']
            refine deepClean_withData _ (h.children.1 kq.2 ?_)
            exact prop_member_childHooked
              (show (Node.mk d (some ps) a i o an al pn).properties = some ps from rfl) hkq
        · exact h.children.1 c (by
            simp only [childHooked, Node.properties, Node.items, Node.oneOf, Node.anyOf,
              Node.allOf, List.mem_append]
            tauto)
        · exact h.children.1 c (by
            simp only [childHooked, Node.properties, Node.items, Node.oneOf, Node.anyOf,
              Node.allOf, List.mem_append]
            tauto)
        · exact h.children.1 c (by
            simp only [childHooked, Node.properties, Node.items, Node.oneOf, Node.anyOf,
              Node.allOf, List.mem_append]
            tauto)
        · exact h.children.1 c (by
            simp only [childHooked, Node.properties, Node.items, Node.oneOf, Node.anyOf,
              Node.allOf, List.mem_append]
            tauto)
      · intro c hc
        exact h.children.2.1 c hc
      · intro c hc
        exact h.children.2.2 c hc
    · exact h

/-- Phase three never changes the surface read by isEmptyObjectSchema
at a location it does not hook. -/
theorem phase3Walk_isEmpty (f : Nat) (m : Node) :
    isEmptyObjectSchema (phase3Walk f .nohook m) = isEmptyObjectSchema m := by
  cases f with
  | zero => rfl
  | succ f =>
    cases m with
    | mk d p a i o an al pn =>
      rw [phase3Walk.eq_2]
      by_cases hr : (Node.mk d p a i o an al pn).ref.isSome
      · rw [if_pos hr]
      · rw [if_neg hr]
        show isEmptyObjectSchema (Node.mk d _ _ _ _ _ _ pn) = _
        cases p <;> cases o <;> cases an <;> cases al <;>
          simp [isEmptyObjectSchema, Node.type, Node.data, Node.properties, Node.oneOf,
            Node.anyOf, Node.allOf, Node.ref]

/-- Phase three preserves deep cleanliness at any fuel. -/
theorem phase3Walk_deep :
    ∀ (f : Nat) (hk : HookKind) (n : Node), DeepClean n → DeepClean (phase3Walk f hk n) := by
  intro f
  induction f with
  | zero =>
    intro hk n h
    exact h
  | succ f ih =>
    intro hk n h
    cases n with
    | mk d p a i o an al pn =>
      rw [phase3Walk.eq_2]
      by_cases hr : (Node.mk d p a i o an al pn).ref.isSome
      · rw [if_pos hr]
        exact h
      · rw [if_neg hr]
        have hch := h.children
        set n₁ : Node := Node.mk d
          (Option.map (List.map fun kp => (kp.1, phase3Walk f .propItem kp.2)) p)
          (Option.map (fun v => match v with
            | APValue.abool b => APValue.abool b
            | APValue.aschema m => APValue.aschema (phase3Walk f .nohook m)) a)
          (Option.map (phase3Walk f .propItem) i)
          (Option.map (List.map (phase3Walk f .member)) o)
          (Option.map (List.map (phase3Walk f .member)) an)
          (Option.map (List.map (phase3Walk f .member)) al) pn with hn1
        have hcd₁ : ChildrenDeep n₁ := by
          refine ⟨fun c hc => ?_, fun c hc => ?_, fun c hc => ?_⟩
          · rw [hn1] at hc
            simp only [childHooked, Node.properties, Node.items, Node.oneOf, Node.anyOf,
              Node.allOf, List.mem_append] at hc
            rcases hc with ((((hc | hc) | hc) | hc) | hc)
            · cases p with
              | none => simp at hc
              | some ps =>
                simp only [Option.map_some, Option.getD_some, List.mem_map] at hc
                obtain ⟨kp, hkp, hceq⟩ := hc
                subst hceq
                obtain ⟨x, hx, hgx⟩ := List.mem_map.mp hkp
                rw [← hgx]
                refine ih .propItem x.2 (hch.1 x.2 ?_)
                exact prop_member_childHooked
                  (show (Node.mk d (some ps) a i o an al pn).properties = some ps from rfl)
                  (by simpa using hx)
            · cases i with
              | none => simp at hc
              | some it =>
                simp at hc
                subst hc
                refine ih .propItem it (hch.1 it ?_)
                exact items_member_childHooked
                  (show (Node.mk d p a (some it) o an al pn).items = some it from rfl)
            · cases o with
              | none => simp at hc
              | some ms =>
                simp at hc
                obtain ⟨m0, hm0, hceq⟩ := hc
                subst hceq
                refine ih .member m0 (hch.1 m0 ?_)
                exact oneOf_member_childHooked
                  (show (Node.mk d p a i (some ms) an al pn).oneOf = some ms from rfl)
                  m0 (by simpa using hm0)
            · cases an with
              | none => simp at hc
              | some ms =>
                simp at hc
                obtain ⟨m0, hm0, hceq⟩ := hc
                subst hceq
                refine ih .member m0 (hch.1 m0 ?_)
                exact anyOf_member_childHooked
                  (show (Node.mk d p a i o (some ms) al pn).anyOf = some ms from rfl)
                  (by simpa using hm0 : m0 ∈ ms)
            · cases al with
              | none => simp at hc
              | some ms =>
                simp at hc
                obtain ⟨m0, hm0, hceq⟩ := hc
                subst hceq
                refine ih .member m0 (hch.1 m0 ?_)
                exact allOf_member_childHooked
                  (show (Node.mk d p a i o an (some ms) pn).allOf = some ms from rfl)
                  (by simpa using hm0 : m0 ∈ ms)
          · rw [hn1] at hc
            simp only [apChild, Node.additionalProperties] at hc
            cases a with
            | none => simp at hc
            | some v =>
              cases v with
              | abool b => simp at hc
              | aschema m0 =>
                simp at hc
                subst hc
                exact ih .nohook m0 (hch.2.1 m0
                  (show apChild (Node.mk d p (some (.aschema m0)) i o an al pn) = some m0
                    from rfl))
          · rw [hn1] at hc
            exact hch.2.2 c hc
        have hclean1 : CleanB n₁ = true := by
          rw [hn1]
          cases a with
          | none => exact h.clean
          | some v =>
            cases v with
            | abool b => exact h.clean
            | aschema m0 =>
              have hcb' : (!isEmptyObjectSchema m0) = true := h.clean
              show (!isEmptyObjectSchema (phase3Walk f HookKind.nohook m0)) = true
              rw [phase3Walk_isEmpty]
              exact hcb'
        have hn1d : DeepClean n₁ := deepClean_intro hclean1 hcd₁
        cases hk with
        | top => exact deepClean_handleMinMax hn1d
        | member => exact deepClean_handleMinMax hn1d
        | propItem => exact hn1d
        | nohook => exact hn1d

/-- Phase three over a name list preserves deep cleanliness. -/
theorem phase3Fold (fuel : Nat) (names : List String) :
    ∀ (acc : Doc), DocDeep acc →
      DocDeep (names.foldl (fun acc nm =>
        match acc.lookup nm with
        | none => acc
        | some v => setAssoc acc nm (phase3Walk fuel .top v)) acc) := by
  induction names with
  | nil =>
    intro acc h
    exact h
  | cons nm names ihn =>
    intro acc h
    rw [List.foldl_cons]
    cases hl : acc.lookup nm with
    | none =>
      simp only [hl]
      exact ihn acc h
    | some v =>
      simp only [hl]
      exact ihn _ (docDeep_setAssoc h (phase3Walk_deep fuel .top v (h (nm, v) (lookup_mem hl))))

/-- Phase three leaves a deeply clean document deeply clean. -/
theorem phase3Doc_deep (fuel : Nat) (d : Doc) (h : DocDeep d) :
    DocDeep (phase3Doc fuel d) := by
  unfold phase3Doc
  exact phase3Fold fuel (d.map (·.1)) d h

end ProtoConvert

namespace ProtoConvert

/-- C3 (amended): after the three traversal phases of modify, no schema
node at a location the walker hooks (named component schemas, property
values, array items, composite members) has additionalProperties equal
to the literal true or to an empty object schema, provided the input
document's reference nodes are bare references, the subtrees at the
unhooked locations (additionalProperties values and propertyNames
values) are already free of such keys, and the traversal fuel covers
every component; in particular the single component with
additionalProperties true is rewritten to a bare type-object schema. -/
theorem C3_amended_additional_properties_invariant (fuel : Nat) (d : Doc)
    (hpre : PreOkDoc d) (hsz : ∀ kv ∈ d, sizeOf kv.2 ≤ fuel) :
    DocDeep (modifyF fuel d) ∧ modifyF 32 exDocAP = [("A", typeNode "object")] := by
  refine ⟨?_, by rfl⟩
  unfold modifyF
  exact phase3Doc_deep fuel _ (phase2Doc_deep fuel _ (phase1Doc_deep fuel d hpre hsz))

/-- Witness for the amended C3: the specification's Scenario 1 document
satisfies the precondition and the fuel bound at fuel 32. -/
theorem C3_amended_witness :
    DocDeep (modifyF 32 exDocAP) ∧ modifyF 32 exDocAP = [("A", typeNode "object")] :=
  C3_amended_additional_properties_invariant 32 exDocAP
    (by
      intro kv hkv
      simp only [exDocAP, List.mem_singleton] at hkv
      subst hkv
      exact PreOk.intro _ (fun h => absurd h (by decide))
        (fun c hc => absurd hc (List.not_mem_nil c))
        (fun c hc => Option.noConfusion hc)
        (fun c hc => Option.noConfusion hc))
    (by
      intro kv hkv
      simp only [exDocAP, List.mem_singleton] at hkv
      subst hkv
      decide)

end ProtoConvert
